import Mathlib

/-!
Shallow embedding of the record-repair (extract/transform) core of the
sales-data ETL pipeline: `et_empregados.py`, `et_produtos.py` and
`et_vendas.py`.  Tables are lists of records; pandas cells are modelled by
`Cell` (`null` for `NaN`, exact rationals for floats, strings for object
cells).  Pandas-specific comparison semantics (`NaN == NaN` is `False` in
element-wise comparison but `NaN` keys are considered equal by
`drop_duplicates`) are modelled explicitly.
-/

namespace SalesETL

/-- A pandas cell: missing (`NaN`/`None`), a numeric value, or a string. -/
inductive Cell where
  | null : Cell
  | num  : ℚ → Cell
  | str  : String → Cell
  deriving DecidableEq, Repr

/-- Element-wise pandas `==` on cells: `NaN` compares unequal to everything
(including itself), numbers compare by value, strings by content, and a
number never equals a string. -/
def pdEqCell : Cell → Cell → Bool
  | Cell.num a, Cell.num b => a = b
  | Cell.str a, Cell.str b => a = b
  | _, _ => false

/-- Element-wise pandas `!=` on cells (negation of `pdEqCell`; in
particular `NaN != NaN` is `True`). -/
def pdNeCell (a b : Cell) : Bool := ! pdEqCell a b

/-- Element-wise pandas `==` between optional strings (`NaN` modelled as
`none` compares unequal to everything). -/
def pdEqStr : Option String → Option String → Bool
  | some a, some b => a = b
  | _, _ => false

theorem pdEqStr_trans {a b c : Option String} (h₁ : pdEqStr a b = true)
    (h₂ : pdEqStr b c = true) : pdEqStr a c = true := by
  cases a <;> cases b <;> cases c <;> simp_all [pdEqStr]

theorem pdEqCell_refl {c : Cell} (h : c ≠ Cell.null) : pdEqCell c c = true := by
  cases c with
  | null => exact absurd rfl h
  | num q => simp [pdEqCell]
  | str s => simp [pdEqCell]

theorem pdEqCell_symm {a b : Cell} (h : pdEqCell a b = true) : pdEqCell b a = true := by
  cases a <;> cases b <;> simp_all [pdEqCell]

theorem pdEqCell_trans {a b c : Cell} (h₁ : pdEqCell a b = true)
    (h₂ : pdEqCell a c = true) : pdEqCell b c = true := by
  cases a <;> cases b <;> cases c <;> simp_all [pdEqCell]

/-! Kernel-reducible rational arithmetic.  The `Rat` field operations of
the standard library are marked irreducible, which blocks evaluation of
concrete tables inside the kernel; the embedding therefore uses the
following wrappers, each proved equal to the corresponding `ℚ`
operation. -/

/-- Reducible rational addition. -/
def qAdd (a b : ℚ) : ℚ := Rat.divInt (a.num * b.den + b.num * a.den) (a.den * b.den)

/-- Reducible rational multiplication. -/
def qMul (a b : ℚ) : ℚ := Rat.divInt (a.num * b.num) (a.den * b.den)

/-- Reducible rational division. -/
def qDiv (a b : ℚ) : ℚ := Rat.divInt (a.num * b.den) (a.den * b.num)

theorem num_eq_self_mul_den (a : ℚ) : (a.num : ℚ) = a * a.den := by
  have h := Rat.num_div_den a
  rw [div_eq_iff (Nat.cast_ne_zero.mpr a.den_nz)] at h
  exact h

theorem qAdd_eq (a b : ℚ) : qAdd a b = a + b := by
  have ha : (a.den : ℚ) ≠ 0 := Nat.cast_ne_zero.mpr a.den_nz
  have hb : (b.den : ℚ) ≠ 0 := Nat.cast_ne_zero.mpr b.den_nz
  rw [qAdd, Rat.divInt_eq_div]
  push_cast
  rw [div_eq_iff (mul_ne_zero ha hb)]
  linear_combination (b.den : ℚ) * num_eq_self_mul_den a +
    (a.den : ℚ) * num_eq_self_mul_den b

theorem qMul_eq (a b : ℚ) : qMul a b = a * b := by
  have ha : (a.den : ℚ) ≠ 0 := Nat.cast_ne_zero.mpr a.den_nz
  have hb : (b.den : ℚ) ≠ 0 := Nat.cast_ne_zero.mpr b.den_nz
  rw [qMul, Rat.divInt_eq_div]
  push_cast
  rw [div_eq_iff (mul_ne_zero ha hb)]
  linear_combination (b.num : ℚ) * num_eq_self_mul_den a +
    (a * (a.den : ℚ)) * num_eq_self_mul_den b

theorem qDiv_eq (a b : ℚ) : qDiv a b = a / b := by
  by_cases hb0 : b = 0
  · subst hb0
    rw [qDiv, Rat.divInt_eq_div]
    norm_num
  · have ha : (a.den : ℚ) ≠ 0 := Nat.cast_ne_zero.mpr a.den_nz
    have hb : (b.den : ℚ) ≠ 0 := Nat.cast_ne_zero.mpr b.den_nz
    have hbn : ((b.num : ℤ) : ℚ) ≠ 0 :=
      Int.cast_ne_zero.mpr (Rat.num_ne_zero.mpr hb0)
    rw [qDiv, Rat.divInt_eq_div]
    push_cast
    rw [div_eq_div_iff (mul_ne_zero ha hbn) hb0]
    linear_combination ((b.den : ℚ) * b) * num_eq_self_mul_den a -
      (a * (a.den : ℚ)) * num_eq_self_mul_den b

/-- Does the character denote a decimal digit?  Returns its value. -/
def charVal (c : Char) : Option ℕ :=
  if '0' ≤ c ∧ c ≤ '9' then some (c.toNat - 48) else none

/-- Accumulating parser for an all-digit character string. -/
def parseNatAux : ℕ → List Char → Option ℕ
  | acc, [] => some acc
  | acc, c :: cs =>
    match charVal c with
    | some v => parseNatAux (10 * acc + v) cs
    | none => none

/-- Parse a non-empty all-digit character list as a natural number. -/
def parseNatChars : List Char → Option ℕ
  | [] => none
  | cs => parseNatAux 0 cs

/-- Strip leading and trailing whitespace from a character list (the
effect of Python's `str.strip` before numeric conversion). -/
def stripChars (l : List Char) : List Char :=
  ((l.dropWhile Char.isWhitespace).reverse.dropWhile Char.isWhitespace).reverse

/-- Numeric coercion of a decimal string, as performed by
`pd.to_numeric(..., errors='coerce')` / `astype(float)` on the string
values appearing in this pipeline: optional sign, integer part, optional
fractional part; surrounding whitespace is stripped; anything else becomes
missing. -/
def parseRat (s : String) : Option ℚ :=
  let cs := stripChars s.data
  let (sign, rest) :=
    match cs with
    | '-' :: cs' => ((-1 : ℚ), cs')
    | '+' :: cs' => ((1 : ℚ), cs')
    | _ => ((1 : ℚ), cs)
  match rest.span (fun c => c ≠ '.') with
  | (intPart, []) =>
    (parseNatChars intPart).map (fun n => qMul sign (n : ℚ))
  | (intPart, _dot :: fracPart) =>
    match parseNatChars intPart, parseNatChars fracPart with
    | some n, some f =>
      some (qMul sign (qAdd (n : ℚ) (qDiv (f : ℚ) ((10 ^ fracPart.length : ℕ) : ℚ))))
    | _, _ => none

/-- `pd.to_numeric(..., errors='coerce')` on a single cell. -/
def toNumericCell : Cell → Option ℚ
  | Cell.null => none
  | Cell.num q => some q
  | Cell.str s => parseRat s

/-- In-place numeric coercion of a cell: numbers survive, parseable
strings become numbers, everything else becomes missing. -/
def numifyCell (c : Cell) : Cell :=
  match toNumericCell c with
  | some q => Cell.num q
  | none => Cell.null

/-- Extract the numeric value of a (coerced) cell. -/
def cellNum? : Cell → Option ℚ
  | Cell.num q => some q
  | _ => none

/-- Floor of a rational, written so that it reduces inside the kernel. -/
def ratFloor (q : ℚ) : ℤ := q.num.fdiv q.den

theorem ratFloor_eq_floor (q : ℚ) : ratFloor q = ⌊q⌋ := by
  rw [ratFloor, Rat.floor_def, Int.fdiv_eq_ediv _ (by positivity)]

/-- One half, written reducibly. -/
def qHalf : ℚ := Rat.divInt 1 2

theorem qHalf_eq : qHalf = 1 / 2 := by
  rw [qHalf, Rat.divInt_eq_div]
  norm_num

/-- Python 3 `round` to an integer: round half to even. -/
def pyRound (q : ℚ) : ℤ :=
  let f := ratFloor q
  let r := qAdd q (-(f : ℚ))
  if r < qHalf then f
  else if r > qHalf then f + 1
  else if f % 2 = 0 then f else f + 1

/-- Python `round(x, 2)` (exact-rational reading): round `100 x` half to
even, divide back. -/
def pyRound2 (q : ℚ) : ℚ := qDiv (pyRound (qMul q 100) : ℚ) 100

/-- C-style cast to int (`astype(int)` on a finite value): truncation
toward zero. -/
def pyTrunc (q : ℚ) : ℤ := if 0 ≤ q then ratFloor q else -ratFloor (-q)

/-- Insert into a sorted list (structurally recursive, so that concrete
tables evaluate inside the kernel). -/
def insertSorted {α : Type} (le : α → α → Bool) (x : α) : List α → List α
  | [] => [x]
  | y :: ys => if le x y then x :: y :: ys else y :: insertSorted le x ys

/-- Insertion sort by a boolean comparison. -/
def sortBy {α : Type} (le : α → α → Bool) : List α → List α
  | [] => []
  | x :: xs => insertSorted le x (sortBy le xs)

theorem length_insertSorted {α : Type} (le : α → α → Bool) (x : α)
    (l : List α) : (insertSorted le x l).length = l.length + 1 := by
  induction l with
  | nil => rfl
  | cons y ys ih =>
    simp only [insertSorted]
    split <;> simp [ih]

theorem length_sortBy {α : Type} (le : α → α → Bool) (l : List α) :
    (sortBy le l).length = l.length := by
  induction l with
  | nil => rfl
  | cons x xs ih => simp [sortBy, length_insertSorted, ih]

/-- pandas `Series.median()` over numeric values: sort, take the middle
element, or the mean of the two middle elements for an even count; `NaN`
(`none`) on an empty series. -/
def medianQ (l : List ℚ) : Option ℚ :=
  match l with
  | [] => none
  | _ =>
    let s := sortBy (fun a b => decide (a ≤ b)) l
    let n := l.length
    if n % 2 = 1 then some (s.getD (n / 2) 0)
    else some (qDiv (qAdd (s.getD (n / 2 - 1) 0) (s.getD (n / 2) 0)) 2)

/-- The pandas `Series.max()` (skipping missing values) of a list of
rationals; `none` when the list is empty. -/
def maxQ (l : List ℚ) : Option ℚ :=
  match l with
  | [] => none
  | x :: xs => some (xs.foldl (fun a b => if a ≤ b then b else a) x)

theorem medianQ_ne_none {l : List ℚ} (h : l ≠ []) : medianQ l ≠ none := by
  cases l with
  | nil => exact absurd rfl h
  | cons x xs =>
    simp only [medianQ]
    split <;> simp

/-- `List.modify`-style single-index update, used for `df.loc[idx, col]`
row writes. -/
def listModify {α : Type} (l : List α) (i : ℕ) (f : α → α) : List α :=
  match l, i with
  | [], _ => []
  | x :: xs, 0 => f x :: xs
  | x :: xs, n + 1 => x :: listModify xs n f

theorem listModify_length {α : Type} (l : List α) (i : ℕ) (f : α → α) :
    (listModify l i f).length = l.length := by
  induction l generalizing i with
  | nil => rfl
  | cons x xs ih =>
    cases i with
    | zero => rfl
    | succ n => simp [listModify, ih]

theorem listModify_getElem {α : Type} (l : List α) (i : ℕ) (f : α → α)
    (j : ℕ) (hj : j < (listModify l i f).length) (hj' : j < l.length) :
    (listModify l i f)[j] = if j = i then f l[j] else l[j] := by
  induction l generalizing i j with
  | nil => simp at hj'
  | cons x xs ih =>
    cases i with
    | zero =>
      cases j with
      | zero => simp [listModify]
      | succ m => simp [listModify]
    | succ n =>
      cases j with
      | zero => simp [listModify]
      | succ m =>
        simp only [listModify, List.getElem_cons_succ]
        have hm : m < (listModify xs n f).length := by
          simpa [listModify] using Nat.lt_of_succ_lt_succ hj
        have hm' : m < xs.length := Nat.lt_of_succ_lt_succ (by simpa using hj')
        rw [ih n m hm hm']
        simp [Nat.succ_inj]

theorem listModify_id {α : Type} (l : List α) (i : ℕ) :
    listModify l i (fun x => x) = l := by
  induction l generalizing i with
  | nil => rfl
  | cons x xs ih =>
    cases i with
    | zero => rfl
    | succ n => simp [listModify, ih]

theorem listModify_getD_ne {α : Type} (l : List α) (i j : ℕ) (f : α → α)
    (d : α) (h : j ≠ i) : (listModify l i f).getD j d = l.getD j d := by
  induction l generalizing i j with
  | nil => rfl
  | cons x xs ih =>
    cases i with
    | zero =>
      cases j with
      | zero => exact absurd rfl h
      | succ m => rfl
    | succ n =>
      cases j with
      | zero => rfl
      | succ m =>
        simp only [listModify, List.getD_cons_succ]
        exact ih n m (fun hm => h (by omega))

theorem listModify_getD_self {α : Type} (l : List α) (i : ℕ) (f : α → α)
    (d : α) (h : i < l.length) :
    (listModify l i f).getD i d = f (l.getD i d) := by
  induction l generalizing i with
  | nil => simp at h
  | cons x xs ih =>
    cases i with
    | zero => rfl
    | succ n =>
      simp only [listModify, List.getD_cons_succ]
      exact ih n (by simpa using h)

/-! ### Index-directed folds

The row loops of the source (`for idx, row in snapshot.iterrows(): …
df.loc[idx, col] = …`) become folds over a list of (index, snapshot-row)
pairs that write through `listModify`.  Since the written indices are
pairwise distinct, such a fold acts pointwise; the lemmas below make that
precise. -/

theorem foldl_listModify_length {α β : Type} (F : ℕ × β → α → α)
    (l : List (ℕ × β)) (acc : List α) :
    (l.foldl (fun a p => listModify a p.1 (F p)) acc).length = acc.length := by
  induction l generalizing acc with
  | nil => rfl
  | cons p ps ih => simp [ih, listModify_length]

theorem foldl_listModify_getD_not_mem {α β : Type} (F : ℕ × β → α → α)
    (d : α) (l : List (ℕ × β)) (acc : List α) (i : ℕ)
    (hi : i ∉ l.map Prod.fst) :
    (l.foldl (fun a p => listModify a p.1 (F p)) acc).getD i d =
      acc.getD i d := by
  induction l generalizing acc with
  | nil => rfl
  | cons p ps ih =>
    simp only [List.map_cons, List.mem_cons, not_or] at hi
    simp only [List.foldl_cons]
    rw [ih _ hi.2, listModify_getD_ne _ _ _ _ _ hi.1]

theorem foldl_listModify_getD {α β : Type} (F : ℕ × β → α → α) (d : α)
    (l : List (ℕ × β)) (acc : List α)
    (hnd : (l.map Prod.fst).Nodup)
    (hlt : ∀ p ∈ l, p.1 < acc.length) (i : ℕ) :
    (l.foldl (fun a p => listModify a p.1 (F p)) acc).getD i d =
      match l.find? (fun p => p.1 = i) with
      | some p => F p (acc.getD i d)
      | none => acc.getD i d := by
  induction l generalizing acc with
  | nil => rfl
  | cons p ps ih =>
    simp only [List.map_cons, List.nodup_cons] at hnd
    simp only [List.foldl_cons, List.find?]
    by_cases h : p.1 = i
    · subst h
      simp only [decide_True]
      rw [foldl_listModify_getD_not_mem _ _ _ _ _ hnd.1,
        listModify_getD_self _ _ _ _ (hlt p (by simp))]
    · simp only [decide_eq_true_eq, h, decide_False]
      rw [ih _ hnd.2 (fun q hq => by
        rw [listModify_length]; exact hlt q (List.mem_cons_of_mem _ hq))]
      rw [listModify_getD_ne _ _ _ _ _ (fun hm => h hm.symm)]

theorem find?_enumFrom_filter_lt {α : Type} (pred : ℕ × α → Bool) :
    ∀ (t : List α) (n i : ℕ), i < n →
      ((List.enumFrom n t).filter pred).find? (fun p => p.1 = i) = none := by
  intro t
  induction t with
  | nil => intro n i _; rfl
  | cons x xs ih =>
    intro n i hi
    simp only [List.enumFrom, List.filter]
    cases hp : pred (n, x) with
    | true =>
      simp only [List.find?]
      have : ((n, x).1 = i) = False := by simp; omega
      simp only [this, decide_False]
      exact ih (n + 1) i (by omega)
    | false => exact ih (n + 1) i (by omega)

theorem find?_enumFrom_filter {α : Type} (pred : ℕ × α → Bool) (d : α) :
    ∀ (t : List α) (n i : ℕ), n ≤ i → i < n + t.length →
      ((List.enumFrom n t).filter pred).find? (fun p => p.1 = i) =
        if pred (i, t.getD (i - n) d) then some (i, t.getD (i - n) d)
        else none := by
  intro t
  induction t with
  | nil => intro n i h1 h2; simp at h2; omega
  | cons x xs ih =>
    intro n i h1 h2
    simp only [List.enumFrom, List.filter]
    by_cases hni : i = n
    · subst hni
      simp only [Nat.sub_self, List.getD_cons_zero]
      cases hp : pred (i, x) with
      | true =>
        simp only [List.find?, decide_True, if_true]
      | false =>
        simp only [if_false]
        exact find?_enumFrom_filter_lt pred xs (i + 1) i (by omega)
    · have hs : i - n = (i - (n + 1)) + 1 := by omega
      rw [hs]
      simp only [List.getD_cons_succ]
      cases hp : pred (n, x) with
      | true =>
        simp only [List.find?]
        have : ((n, x).1 = i) = False := by simp; omega
        simp only [this, decide_False]
        exact ih (n + 1) i (by omega) (by simp at h2 ⊢; omega)
      | false => exact ih (n + 1) i (by omega) (by simp at h2 ⊢; omega)

theorem mem_enumFrom_lt {α : Type} :
    ∀ (t : List α) (n : ℕ) (p : ℕ × α), p ∈ List.enumFrom n t →
      p.1 < n + t.length := by
  intro t
  induction t with
  | nil => intro n p h; simp at h
  | cons x xs ih =>
    intro n p h
    simp only [List.enumFrom, List.mem_cons] at h
    rcases h with h | h
    · subst h; simp
    · have := ih (n + 1) p h
      simp only [List.length_cons]
      omega

theorem nodup_fst_enum_filter {α : Type} (t : List α) (pred : ℕ × α → Bool) :
    ((t.enum.filter pred).map Prod.fst).Nodup := by
  have hsub : List.Sublist ((t.enum.filter pred).map Prod.fst)
      (t.enum.map Prod.fst) :=
    (List.filter_sublist _).map Prod.fst
  have : (t.enum.map Prod.fst).Nodup := by
    rw [List.enum_map_fst]
    exact List.nodup_range _
  exact this.sublist hsub

theorem mem_enum_filter_lt {α : Type} (t : List α) (pred : ℕ × α → Bool)
    (p : ℕ × α) (hp : p ∈ t.enum.filter pred) : p.1 < t.length := by
  have := mem_enumFrom_lt t 0 p (List.mem_of_mem_filter hp)
  omega

/-- Pointwise description of an index-directed fold over the rows of
`t.enum.filter pred` starting from `t` itself: the row at `i` is updated
by `F` exactly when it satisfies the predicate. -/
theorem foldl_listModify_enum_filter {α : Type} (t : List α)
    (pred : ℕ × α → Bool) (F : ℕ × α → α → α) (d : α) (i : ℕ)
    (hi : i < t.length) :
    ((t.enum.filter pred).foldl (fun a p => listModify a p.1 (F p)) t).getD i d =
      if pred (i, t.getD i d) then F (i, t.getD i d) (t.getD i d)
      else t.getD i d := by
  rw [foldl_listModify_getD F d _ t (nodup_fst_enum_filter t pred)
    (fun p hp => mem_enum_filter_lt t pred p hp) i]
  rw [show t.enum = List.enumFrom 0 t from rfl,
    find?_enumFrom_filter pred d t 0 i (Nat.zero_le i) (by omega)]
  simp only [Nat.sub_zero]
  by_cases hp : pred (i, t.getD i d) = true
  · rw [if_pos hp, if_pos hp]
  · rw [if_neg hp, if_neg hp]

theorem getD_map {α β : Type} (f : α → β) (t : List α) (i : ℕ)
    (hi : i < t.length) (d : β) (e : α) :
    (t.map f).getD i d = f (t.getD i e) := by
  induction t generalizing i with
  | nil => simp at hi
  | cons x xs ih =>
    cases i with
    | zero => rfl
    | succ n =>
      simp only [List.map_cons, List.getD_cons_succ]
      exact ih n (by simpa using hi)

theorem enum_filter_isEmpty_pred {α : Type} (t : List α) (pred : ℕ × α → Bool)
    (d : α) (i : ℕ) (hi : i < t.length)
    (he : (t.enum.filter pred).isEmpty = true) :
    pred (i, t.getD i d) = false := by
  have h := find?_enumFrom_filter pred d t 0 i (Nat.zero_le i) (by omega)
  simp only [Nat.sub_zero] at h
  rw [List.isEmpty_iff] at he
  rw [show List.enumFrom 0 t = t.enum from rfl, he] at h
  by_cases hp : pred (i, t.getD i d) = true
  · rw [if_pos hp] at h
    exact absurd h.symm (by simp)
  · simpa using hp

/-- First-occurrence deduplication by a key projection, modelling pandas
`drop_duplicates(subset=[key], keep='first')`.  Key equality is raw value
equality (pandas treats `NaN` keys as equal to each other here). -/
def dedupByKey {α : Type} (key : α → Cell) : List α → List Cell → List α
  | [], _ => []
  | x :: xs, seen =>
    if key x ∈ seen then dedupByKey key xs seen
    else x :: dedupByKey key xs (key x :: seen)

/-- Is the cell the missing marker? (`Series.isnull()` on one cell.) -/
def isNullCell : Cell → Bool
  | Cell.null => true
  | _ => false

/-- Strict integer-literal parse, modelling Python `int(str)`. -/
def parseIntStrict (s : String) : Option ℤ :=
  let cs := stripChars s.data
  match cs with
  | '-' :: cs' => (parseNatChars cs').map (fun n => -(n : ℤ))
  | '+' :: cs' => (parseNatChars cs').map (fun n => (n : ℤ))
  | _ => (parseNatChars cs).map (fun n => (n : ℤ))

/-- `astype(int)` on one cell: truncates a finite number, parses an
integer-literal string, fails (raises) on a missing value or a
non-integer string. -/
def pyIntOfCell : Cell → Option ℤ
  | Cell.num q => some (pyTrunc q)
  | Cell.str s => parseIntStrict s
  | Cell.null => none

namespace Empregados

/-- One employee record (`empregados` row).  The traceability columns
(`idade_imputada`, `metodo_imputacao_idade`, `idade_ajustada`) are lazily
added by the source with exactly these defaults, so they are modelled as
always-present fields. -/
structure Rec where
  id_empregado : Cell
  nome : Option String
  cargo : Option String
  idade : Cell
  idade_imputada : Bool := false
  metodo_imputacao_idade : String := ""
  idade_ajustada : Bool := false
  deriving DecidableEq, Repr

abbrev Table := List Rec

/-- A row of blank cells, used as the `getD` default in pointwise
statements. -/
def Rec.dflt : Rec :=
  { id_empregado := .null, nome := none, cargo := none, idade := .null }

/-- `remove_duplicates(df, ['id_empregado'])`: keep the first occurrence
of each key value (`drop_duplicates(subset, keep='first')`). -/
def remove_duplicates (t : Table) : Table :=
  dedupByKey (fun r => r.id_empregado) t []

/-- `str(row['nome']) if pd.notnull(row['nome']) else ''`. -/
def pyStrNome : Option String → String
  | none => ""
  | some s => s

/-- `str(row['id_empregado'])` for the id cell of an employee row
(`Int64`-typed ids print without a decimal point). -/
def pyStrId : Cell → String
  | Cell.null => "nan"
  | Cell.num q => if q.den = 1 then toString q.num else toString q
  | Cell.str s => s

/-- Python `s.strip() == ''`: true exactly when every character of `s`
is whitespace. -/
def isBlankStr (s : String) : Bool :=
  s.data.all (fun c => c.isWhitespace)

/-- Per-row body of the `fix_missing_names` loop. -/
def fixMissingNameRow (r : Rec) : Rec :=
  if isBlankStr (pyStrNome r.nome) then
    { r with nome := some ("Funcionário " ++ pyStrId r.id_empregado) }
  else r

/-- `fix_missing_names`: a blank (null or whitespace-only) name is
replaced by `Funcionário {id_empregado}`; non-blank names are left
alone. -/
def fix_missing_names (t : Table) : Table :=
  t.map fixMissingNameRow

/-- `fill_missing_cargos`: `replace('', 'Não Informado')` then
`fillna('Não Informado')`. -/
def fill_missing_cargos (t : Table) : Table :=
  t.map (fun r =>
    match r.cargo with
    | none => { r with cargo := some "Não Informado" }
    | some s => if s = "" then { r with cargo := some "Não Informado" } else r)

/-- Numeric coercion of the `idade` column
(`pd.to_numeric(df['idade'], errors='coerce')`). -/
def numifyIdade (r : Rec) : Rec :=
  { r with idade := numifyCell r.idade }

/-- One iteration of the `fill_missing_ages` loop: `row` is a snapshot of
a record whose age was blank after coercion; the medians are computed
over the live table and the fill is written to every live row whose
`id_empregado` equals the snapshot row's id. -/
def ageStep (acc : Table × ℕ) (row : Rec) : Table × ℕ :=
  let grp := ((acc.1.filter (fun x =>
      pdEqStr x.cargo row.cargo &&
      pdNeCell x.id_empregado row.id_empregado &&
      ! isNullCell x.idade)).filterMap (fun x => cellNum? x.idade))
  match medianQ grp with
  | some m =>
    (acc.1.map (fun x =>
      if pdEqCell x.id_empregado row.id_empregado then
        { x with idade := Cell.num ((pyRound m : ℤ) : ℚ), idade_imputada := true,
                 metodo_imputacao_idade := "mediana_cargo" }
      else x), acc.2)
  | none =>
    let glob := ((acc.1.filter (fun x => ! isNullCell x.idade)).filterMap
        (fun x => cellNum? x.idade))
    match medianQ glob with
    | some m =>
      (acc.1.map (fun x =>
        if pdEqCell x.id_empregado row.id_empregado then
          { x with idade := Cell.num ((pyRound m : ℤ) : ℚ), idade_imputada := true,
                   metodo_imputacao_idade := "mediana_global" }
        else x), acc.2)
    | none => (acc.1, acc.2 + 1)   -- "Não foi possível calcular mediana": warning, no fill

/-- `fill_missing_ages` with its warning count: coerce the age column,
snapshot the blank-age rows, then process them in table order over the
live table (group median by `cargo` excluding the record's own id, global
median as fallback, warning when neither exists). -/
def fill_missing_ages_core (t0 : Table) : Table × ℕ :=
  let t := t0.map numifyIdade
  let blanks := t.filter (fun r => isNullCell r.idade)
  blanks.foldl ageStep (t, 0)

/-- `fill_missing_ages` (resulting table). -/
def fill_missing_ages (t : Table) : Table :=
  (fill_missing_ages_core t).1

/-- Number of "could not compute a median" warnings logged by
`fill_missing_ages`. -/
def fill_missing_ages_warnings (t : Table) : ℕ :=
  (fill_missing_ages_core t).2

/-- Is the row's age outside the valid 18–70 band?  (pandas comparisons
with `NaN` are `False`, so a missing age is never selected.) -/
def ageOutOfRange (r : Rec) : Bool :=
  match r.idade with
  | Cell.num q => q < 18 || q > 70
  | _ => false

/-- `validate_age_range`: clamp out-of-range ages to the 18–70 band
(row-indexed writes over the snapshot of offending rows), then
`df['idade'].astype(int)` — which fails when any age is still missing. -/
def validate_age_range (t : Table) : Option Table :=
  let inv := t.enum.filter (fun p => ageOutOfRange p.2)
  let t1 := inv.foldl (fun acc p =>
    match p.2.idade with
    | Cell.num q =>
      if q < 18 then
        listModify acc p.1 (fun x =>
          { x with idade := Cell.num 18, idade_ajustada := true })
      else if q > 70 then
        listModify acc p.1 (fun x =>
          { x with idade := Cell.num 70, idade_ajustada := true })
      else acc
    | _ => acc) t
  t1.mapM (fun x =>
    match pyIntOfCell x.idade with
    | some n => some { x with idade := Cell.num (n : ℚ) }
    | none => none)

/-- Is the id cell blank in the sense of `fill_missing_employee_ids`
(`isna() | == '' | == ' '`)? -/
def isMissingId (c : Cell) : Bool :=
  c = Cell.null || c = Cell.str "" || c = Cell.str " "

/-- `fill_missing_employee_ids`: compute the maximum existing numeric id
(`0` when there is none), assign `max+1, max+2, …` to the blank-id rows in
order, then convert the column with
`pd.to_numeric(..., errors='coerce').astype('Int64')` (missing stays
missing, fractional values make the cast fail). -/
def fill_missing_employee_ids (t : Table) : Option Table :=
  let missingIdx := t.enum.filter (fun p => isMissingId p.2.id_empregado)
  let t1 :=
    if missingIdx.isEmpty then t
    else
      let existing := t.filter (fun r => ! isMissingId r.id_empregado)
      let max_id : ℤ :=
        if existing.isEmpty then 0
        else
          match maxQ (existing.filterMap (fun r => toNumericCell r.id_empregado)) with
          | none => 0          -- `pd.isna(max_id)`: every coercion failed
          | some m => pyTrunc m
      (missingIdx.foldl (fun (acc : Table × ℤ) p =>
          (listModify acc.1 p.1 (fun x => { x with id_empregado := Cell.num ((acc.2 : ℤ) : ℚ) }),
           acc.2 + 1))
        (t, max_id + 1)).1
  t1.mapM (fun r =>
    match toNumericCell r.id_empregado with
    | none => some { r with id_empregado := Cell.null }
    | some q => if q.den = 1 then some { r with id_empregado := Cell.num q } else none)

end Empregados

namespace Produtos

/-- One product record (`produtos` row). -/
structure Rec where
  id_produto : Cell
  nome : Option String
  categoria : Option String
  preco : Cell
  deriving DecidableEq, Repr

abbrev Table := List Rec

/-- A row of blank cells, used as the `getD` default in pointwise
statements. -/
def Rec.dflt : Rec :=
  { id_produto := .null, nome := none, categoria := none, preco := .null }

/-- `remove_duplicates(df, ['id_produto'])`. -/
def remove_duplicates (t : Table) : Table :=
  dedupByKey (fun r => r.id_produto) t []

/-- `str(row['nome'])` (a missing name prints as `nan`). -/
def pyStrNomeCell : Option String → String
  | none => "nan"
  | some s => s

/-- Per-row body of the `fix_product_names` loop. -/
def fixProductNameRow (r : Rec) : Rec :=
  let esperado := "Produto " ++ Empregados.pyStrId r.id_produto
  if pyStrNomeCell r.nome ≠ esperado then { r with nome := some esperado } else r

/-- `fix_product_names`: every row whose name differs from the canonical
`Produto {id_produto}` is overwritten with it (a normalisation, not a
null-fill). -/
def fix_product_names (t : Table) : Table :=
  t.map fixProductNameRow

/-- `fill_missing_categories`: `replace('', 'Desconhecida')` then
`fillna('Desconhecida')`. -/
def fill_missing_categories (t : Table) : Table :=
  t.map (fun r =>
    match r.categoria with
    | none => { r with categoria := some "Desconhecida" }
    | some s => if s = "" then { r with categoria := some "Desconhecida" } else r)

/-- Numeric coercion of the `preco` column. -/
def numifyPreco (r : Rec) : Rec :=
  { r with preco := numifyCell r.preco }

/-- One iteration of the `fill_missing_prices` loop: group median by
`categoria` (excluding the record's own `id_produto`) over the live
table; when the group has no valid price the record is left alone and a
warning is logged — there is no global-median fallback. -/
def priceStep (acc : Table × ℕ) (row : Rec) : Table × ℕ :=
  let grp := ((acc.1.filter (fun x =>
      pdEqStr x.categoria row.categoria &&
      pdNeCell x.id_produto row.id_produto &&
      ! isNullCell x.preco)).filterMap (fun x => cellNum? x.preco))
  match medianQ grp with
  | some m =>
    (acc.1.map (fun x =>
      if pdEqCell x.id_produto row.id_produto then
        { x with preco := Cell.num (pyRound2 m) }
      else x), acc.2)
  | none => (acc.1, acc.2 + 1)

/-- `fill_missing_prices` with its warning count: coerce the price
column, snapshot the blank-price rows, then process them in table order
over the live table. -/
def fill_missing_prices_core (t0 : Table) : Table × ℕ :=
  let t := t0.map numifyPreco
  let blanks := t.filter (fun r => isNullCell r.preco)
  blanks.foldl priceStep (t, 0)

/-- `fill_missing_prices` (resulting table). -/
def fill_missing_prices (t : Table) : Table :=
  (fill_missing_prices_core t).1

/-- Number of "could not compute a median" warnings logged by
`fill_missing_prices`. -/
def fill_missing_prices_warnings (t : Table) : ℕ :=
  (fill_missing_prices_core t).2

end Produtos

/-! ### Dates

The sales transform works on date strings in the canonical `DD/MM/YYYY`
format (`pd.to_datetime(..., format='%d/%m/%Y', errors='coerce')` /
`strftime('%d/%m/%Y')`).  A parsed timestamp is modelled by its calendar
date; the pandas `Timestamp` range limit (1677-09-21T00:12:43 …
2262-04-11T23:47:16, outside of which parsing coerces to `NaT`) is
expressed at midnight granularity as the lexicographic date bound
1677-09-22 … 2262-04-11. -/

structure Date where
  day : ℕ
  month : ℕ
  year : ℕ
  deriving DecidableEq, Repr

def isLeap (y : ℕ) : Bool :=
  decide (y % 4 = 0) && (decide (y % 100 ≠ 0) || decide (y % 400 = 0))

def daysInMonth (y m : ℕ) : ℕ :=
  if m = 2 then (if isLeap y then 29 else 28)
  else if m = 4 ∨ m = 6 ∨ m = 9 ∨ m = 11 then 30
  else 31

/-- Is the (midnight) date within the pandas `Timestamp` range? -/
def pandasInRange (d m y : ℕ) : Bool :=
  (decide (1677 < y) && decide (y < 2262)) ||
  (decide (y = 1677) && (decide (9 < m) || (decide (m = 9) && decide (22 ≤ d)))) ||
  (decide (y = 2262) && (decide (m < 4) || (decide (m = 4) && decide (d ≤ 11))))

/-- Calendar validity plus `Timestamp`-range check of a day/month/year
triple, as enforced by `pd.to_datetime(..., format='%d/%m/%Y',
errors='coerce')`. -/
def dateOK (d m y : ℕ) : Bool :=
  decide (1 ≤ m) && decide (m ≤ 12) && decide (1 ≤ d) &&
  decide (d ≤ daysInMonth y m) && pandasInRange d m y

def Date.valid (dt : Date) : Bool := dateOK dt.day dt.month dt.year

def digitChar (n : ℕ) : Char := Char.ofNat (48 + n)

/-- `%02d`. -/
def pad2 (n : ℕ) : List Char := [digitChar (n / 10 % 10), digitChar (n % 10)]

/-- `%04d`. -/
def pad4 (n : ℕ) : List Char :=
  [digitChar (n / 1000 % 10), digitChar (n / 100 % 10),
   digitChar (n / 10 % 10), digitChar (n % 10)]

/-- `strftime('%d/%m/%Y')`. -/
def fmtDate (dt : Date) : String :=
  String.mk (pad2 dt.day ++ '/' :: pad2 dt.month ++ '/' :: pad4 dt.year)

/-- Split a character list at every `'/'`. -/
def splitSlash : List Char → List (List Char)
  | [] => [[]]
  | c :: cs =>
    if c = '/' then [] :: splitSlash cs
    else
      match splitSlash cs with
      | [] => [[c]]
      | g :: gs => (c :: g) :: gs

/-- `strptime`-style parse of a `'%d/%m/%Y'` date string: three
slash-separated digit groups (1–2 digits for day and month, 1–4 for the
year), validated against the calendar and the `Timestamp` range. -/
def parseDate (s : String) : Option Date :=
  match splitSlash s.data with
  | [ds, ms, ys] =>
    if 1 ≤ ds.length ∧ ds.length ≤ 2 ∧ 1 ≤ ms.length ∧ ms.length ≤ 2 ∧
       1 ≤ ys.length ∧ ys.length ≤ 4 then
      match parseNatChars ds, parseNatChars ms, parseNatChars ys with
      | some d, some m, some y => if dateOK d m y then some ⟨d, m, y⟩ else none
      | _, _, _ => none
    else none
  | _ => none

/-- `pd.to_datetime` of a date cell (`None`/`NaN` gives `NaT`). -/
def parseData : Option String → Option Date
  | none => none
  | some s => parseDate s

theorem digitChar_lt10_ne_slash : ∀ k, k < 10 → digitChar k ≠ '/' := by decide

theorem charVal_digitChar : ∀ k, k < 10 → charVal (digitChar k) = some k := by decide

theorem splitSlash_no_slash (l : List Char) (h : '/' ∉ l) :
    splitSlash l = [l] := by
  induction l with
  | nil => rfl
  | cons c cs ih =>
    simp only [List.mem_cons, not_or] at h
    rw [splitSlash, if_neg (fun hc => h.1 hc.symm), ih h.2]

theorem splitSlash_append (l rest : List Char) (h : '/' ∉ l) :
    splitSlash (l ++ '/' :: rest) = l :: splitSlash rest := by
  induction l with
  | nil => simp [splitSlash]
  | cons c cs ih =>
    simp only [List.mem_cons, not_or] at h
    simp only [List.cons_append]
    rw [splitSlash, if_neg (fun hc => h.1 hc.symm), ih h.2]

theorem slash_not_mem_pad2 (n : ℕ) : '/' ∉ pad2 n := by
  have h1 := digitChar_lt10_ne_slash (n / 10 % 10) (Nat.mod_lt _ (by norm_num))
  have h2 := digitChar_lt10_ne_slash (n % 10) (Nat.mod_lt _ (by norm_num))
  simp only [pad2, List.mem_cons, List.not_mem_nil, or_false, not_or]
  exact ⟨fun hc => h1 hc.symm, fun hc => h2 hc.symm⟩

theorem slash_not_mem_pad4 (n : ℕ) : '/' ∉ pad4 n := by
  have h1 := digitChar_lt10_ne_slash (n / 1000 % 10) (Nat.mod_lt _ (by norm_num))
  have h2 := digitChar_lt10_ne_slash (n / 100 % 10) (Nat.mod_lt _ (by norm_num))
  have h3 := digitChar_lt10_ne_slash (n / 10 % 10) (Nat.mod_lt _ (by norm_num))
  have h4 := digitChar_lt10_ne_slash (n % 10) (Nat.mod_lt _ (by norm_num))
  simp only [pad4, List.mem_cons, List.not_mem_nil, or_false, not_or]
  exact ⟨fun hc => h1 hc.symm, fun hc => h2 hc.symm, fun hc => h3 hc.symm,
    fun hc => h4 hc.symm⟩

theorem parseNatAux_digit (k : ℕ) (hk : k < 10) (acc : ℕ) (rest : List Char) :
    parseNatAux acc (digitChar k :: rest) = parseNatAux (10 * acc + k) rest := by
  simp [parseNatAux, charVal_digitChar k hk]

theorem parseNatChars_pad2 (n : ℕ) (h : n ≤ 99) :
    parseNatChars (pad2 n) = some n := by
  have h1 : n / 10 % 10 < 10 := Nat.mod_lt _ (by norm_num)
  have h2 : n % 10 < 10 := Nat.mod_lt _ (by norm_num)
  show parseNatAux 0 (pad2 n) = some n
  rw [pad2, parseNatAux_digit _ h1, parseNatAux_digit _ h2, parseNatAux]
  congr 1
  omega

theorem parseNatChars_pad4 (n : ℕ) (h : n ≤ 9999) :
    parseNatChars (pad4 n) = some n := by
  have h1 : n / 1000 % 10 < 10 := Nat.mod_lt _ (by norm_num)
  have h2 : n / 100 % 10 < 10 := Nat.mod_lt _ (by norm_num)
  have h3 : n / 10 % 10 < 10 := Nat.mod_lt _ (by norm_num)
  have h4 : n % 10 < 10 := Nat.mod_lt _ (by norm_num)
  show parseNatAux 0 (pad4 n) = some n
  rw [pad4, parseNatAux_digit _ h1, parseNatAux_digit _ h2,
    parseNatAux_digit _ h3, parseNatAux_digit _ h4, parseNatAux]
  congr 1
  omega

theorem daysInMonth_le31 (y m : ℕ) : daysInMonth y m ≤ 31 := by
  rw [daysInMonth]
  split
  · split <;> norm_num
  · split <;> norm_num

theorem dateOK_bounds {d m y : ℕ} (h : dateOK d m y = true) :
    1 ≤ m ∧ m ≤ 12 ∧ 1 ≤ d ∧ d ≤ 31 ∧ 1677 ≤ y ∧ y ≤ 2262 := by
  simp only [dateOK, pandasInRange, Bool.and_eq_true, Bool.or_eq_true,
    decide_eq_true_eq] at h
  obtain ⟨⟨⟨⟨hm1, hm2⟩, hd1⟩, hd2⟩, hy⟩ := h
  have hd31 : d ≤ 31 := le_trans hd2 (daysInMonth_le31 y m)
  refine ⟨hm1, hm2, hd1, hd31, ?_, ?_⟩ <;> omega

/-- For a valid date, formatting with `strftime('%d/%m/%Y')` and parsing
back with `'%d/%m/%Y'` recovers the date. -/
theorem parseDate_fmtDate {dt : Date} (h : dt.valid = true) :
    parseDate (fmtDate dt) = some dt := by
  obtain ⟨hm1, hm2, hd1, hd31, hy1, hy2⟩ := dateOK_bounds h
  have hsplit : splitSlash (fmtDate dt).data =
      [pad2 dt.day, pad2 dt.month, pad4 dt.year] := by
    show splitSlash (pad2 dt.day ++ '/' :: (pad2 dt.month ++ '/' :: pad4 dt.year)) = _
    rw [splitSlash_append _ _ (slash_not_mem_pad2 _),
      splitSlash_append _ _ (slash_not_mem_pad2 _),
      splitSlash_no_slash _ (slash_not_mem_pad4 _)]
  rw [parseDate, hsplit]
  dsimp only
  have hlen2 : (pad2 dt.day).length = 2 := rfl
  have hlen2m : (pad2 dt.month).length = 2 := rfl
  have hlen4 : (pad4 dt.year).length = 4 := rfl
  rw [if_pos (by rw [hlen2, hlen2m, hlen4]; norm_num)]
  rw [parseNatChars_pad2 _ (by omega), parseNatChars_pad2 _ (by omega),
    parseNatChars_pad4 _ (by omega)]
  dsimp only
  rw [if_pos (show dateOK dt.day dt.month dt.year = true from h)]

/-- Days since 1970-01-01 of a civil date (Howard Hinnant's
`days_from_civil`; the arithmetic the timestamp values behind the
`datetime64` medians follow, at day granularity). -/
def ordOfDate (dt : Date) : ℤ :=
  let y : ℤ := (dt.year : ℤ) - (if dt.month ≤ 2 then 1 else 0)
  let era : ℤ := Int.fdiv y 400
  let yoe : ℤ := y - era * 400
  let doy : ℤ :=
    Int.fdiv (153 * ((dt.month : ℤ) + (if 2 < dt.month then -3 else 9)) + 2) 5
      + (dt.day : ℤ) - 1
  let doe : ℤ := yoe * 365 + Int.fdiv yoe 4 - Int.fdiv yoe 100 + doy
  era * 146097 + doe - 719468

/-- Civil date of a days-since-epoch count (Hinnant's
`civil_from_days`). -/
def dateOfOrd (z0 : ℤ) : Date :=
  let z : ℤ := z0 + 719468
  let era : ℤ := Int.fdiv z 146097
  let doe : ℤ := z - era * 146097
  let yoe : ℤ :=
    Int.fdiv (doe - Int.fdiv doe 1460 + Int.fdiv doe 36524 - Int.fdiv doe 146096) 365
  let y : ℤ := yoe + era * 400
  let doy : ℤ := doe - (365 * yoe + Int.fdiv yoe 4 - Int.fdiv yoe 100)
  let mp : ℤ := Int.fdiv (5 * doy + 2) 153
  let d : ℤ := doy - Int.fdiv (153 * mp + 2) 5 + 1
  let m : ℤ := mp + (if mp < 10 then 3 else -9)
  ⟨d.toNat, m.toNat, (y + (if m ≤ 2 then 1 else 0)).toNat⟩

/-- pandas `Series.median()` over `datetime64` values: sort
chronologically, take the middle value, or the mean of the two middle
timestamps (whose date part is the floor of the mean day count) for an
even count. -/
def medianDate (l : List Date) : Option Date :=
  match l with
  | [] => none
  | _ =>
    let s := sortBy (fun a b => decide (ordOfDate a ≤ ordOfDate b)) l
    let n := l.length
    if n % 2 = 1 then s.getD (n / 2) ⟨1, 1, 1970⟩
    else
      let a := s.getD (n / 2 - 1) ⟨1, 1, 1970⟩
      let b := s.getD (n / 2) ⟨1, 1, 1970⟩
      some (dateOfOrd (Int.fdiv (ordOfDate a + ordOfDate b) 2))

namespace Vendas

/-- One sales record (`vendas` row), with the lazily-added traceability
columns modelled as always-present fields with the source's defaults. -/
structure Rec where
  id_venda : Cell
  id_empregado : Cell
  id_produto : Cell
  data : Option String
  quantidade : Cell
  valor_unitario : Cell
  valor_total : Cell
  data_imputada : Bool := false
  metodo_imputacao : String := ""
  deriving DecidableEq, Repr

abbrev Table := List Rec

/-- `remove_duplicates(df, ['id_venda'])`. -/
def remove_duplicates (t : Table) : Table :=
  dedupByKey (fun r => r.id_venda) t []

/-- A row of blank cells, used as the `getD` default in pointwise
statements. -/
def Rec.dflt : Rec :=
  { id_venda := .null, id_empregado := .null, id_produto := .null,
    data := none, quantidade := .null, valor_unitario := .null,
    valor_total := .null }

/-- `df['data'].isnull() | (df['data'] == '')` for one row. -/
def dataMissing (r : Rec) : Bool :=
  r.data = none || r.data = some ""

/-- The parsed dates of the snapshot rows belonging to one employee
(`vendas_com_data[vendas_com_data['id_empregado'] == id]['data_parsed'].dropna()`). -/
def employeePeerDates (snapshot : Table) (emp : Cell) : List Date :=
  (snapshot.filter (fun x => pdEqCell x.id_empregado emp)).filterMap
    (fun x => parseData x.data)

/-- The write performed on a row filled by tier 1
(`df.loc[idx, 'data'] = data_mediana.strftime('%d/%m/%Y')` plus the
traceability flags). -/
def tier1Fill (med : Date) (x : Rec) : Rec :=
  { x with data := some (fmtDate med), data_imputada := true,
           metodo_imputacao := "mediana_empregado" }

/-- Tier 1, `_fill_missing_dates_by_employee`: the rows that already have
a date are snapshotted (`.copy()`) and parsed once; each missing-date row
is then filled with the median of the snapshot dates of its employee. -/
def fillDatesByEmployee (t : Table) : Table :=
  let missing := t.enum.filter (fun p => dataMissing p.2)
  if missing.isEmpty then t
  else
    let vendas_com_data := t.filter (fun r => ! dataMissing r)
    if vendas_com_data.isEmpty then t
    else
      missing.foldl (fun acc p =>
        match medianDate (employeePeerDates vendas_com_data p.2.id_empregado) with
        | some med => listModify acc p.1 (tier1Fill med)
        | none => acc) t

/-- Tier 2, `_fill_remaining_dates_with_pattern`: the global median over
all rows that currently have a parseable date (tier-1 fills included) is
computed once and assigned to every still-missing row. -/
def fillRemainingWithPattern (t : Table) : Table :=
  if (t.filter (fun r => dataMissing r)).isEmpty then t
  else
    let vendas_com_data := t.filter (fun r => ! dataMissing r)
    if vendas_com_data.isEmpty then t
    else
      let datas_validas := vendas_com_data.filterMap (fun x => parseData x.data)
      match medianDate datas_validas with
      | some med =>
        let fill := fmtDate med
        t.map (fun r =>
          if dataMissing r then
            { r with data := some fill, data_imputada := true,
                     metodo_imputacao := "mediana_global" }
          else r)
      | none => t

/-- Tier 3, `_handle_extreme_missing_dates`: any still-missing row
receives the current processing date (logged as a warning). -/
def handleExtremeMissingDates (now : Date) (t : Table) : Table :=
  if (t.filter (fun r => dataMissing r)).isEmpty then t
  else
    let fill := fmtDate now
    t.map (fun r =>
      if dataMissing r then
        { r with data := some fill, data_imputada := true,
                 metodo_imputacao := "data_atual" }
      else r)

/-- `_parse_and_validate_date_format`: parse every date of the whole
table against the canonical format; any row that fails to parse is
overwritten with the current date and tagged `formato_invalido`
(overriding whatever tag it carried). -/
def parseValidateDateFormat (now : Date) (t : Table) : Table :=
  t.map (fun r =>
    if (parseData r.data).isNone then
      { r with data := some (fmtDate now), data_imputada := true,
               metodo_imputacao := "formato_invalido" }
    else r)

/-- `validate_and_fill_dates`: when any date is missing, run the three
filling tiers; always run the format-validation pass afterwards. -/
def validate_and_fill_dates (now : Date) (t : Table) : Table :=
  let datas_ausentes := t.filter (fun r => dataMissing r)
  let t' :=
    if datas_ausentes.isEmpty then t
    else
      handleExtremeMissingDates now
        (fillRemainingWithPattern (fillDatesByEmployee t))
  parseValidateDateFormat now t'

/-- Numeric coercion of the `valor_unitario` column. -/
def numifyValorUnit (r : Rec) : Rec :=
  { r with valor_unitario := numifyCell r.valor_unitario }

/-- `df_vendas.merge(df_produtos[['id_produto','categoria']],
on='id_produto', how='left')`: each sale row is paired with the
`categoria` of every matching product, one row per match (one row with a
missing category when there is no match).  Join keys match by value, and
pandas `merge` matches `NaN` keys against each other, so key equality is
structural cell equality — a null sale key matches every null product
key. -/
def mergeCategoria (v : Table) (p : Produtos.Table) : List (Rec × Option String) :=
  v.flatMap (fun r =>
    let ms := p.filter (fun q => r.id_produto == q.id_produto)
    match ms with
    | [] => [(r, none)]
    | _ => ms.map (fun q => (r, q.categoria)))

/-- First-occurrence deduplication (pandas `Series.unique()`, which keeps
`NaN` as an entry). -/
def dedupFirst {α : Type} [DecidableEq α] : List α → List α → List α
  | [], _ => []
  | x :: xs, seen =>
    if x ∈ seen then dedupFirst xs seen else x :: dedupFirst xs (x :: seen)

/-- `fill_missing_unit_values` with its warning count: coerce the value
column, left-join the product categories, then fill per category (the
`NaN` category entry is skipped) with the category median of the live
table; rows with an unresolved category are finally filled with the
global median over the live table, when one exists. -/
def fill_missing_unit_values_core (v0 : Table) (p : Produtos.Table) :
    Table × ℕ :=
  let v1 := v0.map numifyValorUnit
  let merged := mergeCategoria v1 p
  let blanks := merged.filter (fun m => isNullCell m.1.valor_unitario)
  if blanks.isEmpty then (merged.map (·.1), 0)
  else
    let cats := dedupFirst (merged.map (·.2)) []
    let after := cats.foldl (fun (acc : List (Rec × Option String) × ℕ) c =>
      match c with
      | none => acc                     -- `pd.notna(categoria)` guard
      | some cname =>
        let valids := ((acc.1.filter (fun m =>
            pdEqStr m.2 (some cname) && ! isNullCell m.1.valor_unitario)).filterMap
            (fun m => cellNum? m.1.valor_unitario))
        match medianQ valids with
        | some med =>
          let mv := pyRound2 med
          (acc.1.map (fun m =>
            if pdEqStr m.2 (some cname) && isNullCell m.1.valor_unitario then
              ({ m.1 with valor_unitario := Cell.num mv }, m.2)
            else m), acc.2)
        | none => (acc.1, acc.2 + 1)) (merged, 0)
    let semCat := after.1.filter (fun m =>
        m.2.isNone && isNullCell m.1.valor_unitario)
    let final :=
      if semCat.isEmpty then after.1
      else
        let glob := ((after.1.filter (fun m =>
            ! isNullCell m.1.valor_unitario)).filterMap
            (fun m => cellNum? m.1.valor_unitario))
        match medianQ glob with
        | some med =>
          let mv := pyRound2 med
          after.1.map (fun m =>
            if m.2.isNone && isNullCell m.1.valor_unitario then
              ({ m.1 with valor_unitario := Cell.num mv }, m.2)
            else m)
        | none => after.1   -- `round(nan, 2)` is NaN: the write keeps them missing
    (final.map (·.1), after.2)

/-- `fill_missing_unit_values` (resulting table). -/
def fill_missing_unit_values (v : Table) (p : Produtos.Table) : Table :=
  (fill_missing_unit_values_core v p).1

/-- `astype(float)` on one cell: `some none` is `NaN`, `some (some q)` a
finite value, `none` a raised conversion error. -/
def floatOfCell : Cell → Option (Option ℚ)
  | Cell.null => some none
  | Cell.num q => some (some q)
  | Cell.str s => (parseRat s).map some

/-- `calculate_total_values`: coerce `valor_total`; where it is missing,
set it to `quantidade * valor_unitario` (cast to float; a `NaN` factor
gives a `NaN` total, an unconvertible factor raises). -/
def calculate_total_values (t : Table) : Option Table :=
  let t1 := t.map (fun r => { r with valor_total := numifyCell r.valor_total })
  t1.mapM (fun r =>
    if isNullCell r.valor_total || r.valor_total == Cell.str "" then
      match floatOfCell r.quantidade, floatOfCell r.valor_unitario with
      | some a, some b =>
        some { r with valor_total :=
          match a, b with
          | some x, some y => Cell.num (x * y)
          | _, _ => Cell.null }
      | _, _ => none
    else some r)

end Vendas

/-! ### Concrete tables used by counterexamples and witnesses -/

/-- Employee with a valid age 50 in cargo `X`. -/
def exP : Empregados.Rec :=
  { id_empregado := .num 1, nome := some "P", cargo := some "X", idade := .num 50 }

/-- Employee with a valid age 10 in cargo `Y`. -/
def exQ : Empregados.Rec :=
  { id_empregado := .num 2, nome := some "Q", cargo := some "Y", idade := .num 10 }

/-- Employee with a missing age in cargo `X`. -/
def exA : Empregados.Rec :=
  { id_empregado := .num 3, nome := some "A", cargo := some "X", idade := .null }

/-- Employee with a missing age in cargo `W` (no peers). -/
def exB : Empregados.Rec :=
  { id_empregado := .num 4, nome := some "B", cargo := some "W", idade := .null }

/-- Employee with a valid age 30 in cargo `Y`. -/
def exC : Empregados.Rec :=
  { id_empregado := .num 5, nome := some "C", cargo := some "Y", idade := .num 30 }

/-- Employee with a missing age in cargo `X` (id 4). -/
def exBX : Empregados.Rec :=
  { id_empregado := .num 4, nome := some "B", cargo := some "X", idade := .null }

/-- Product with a missing price in category `A`. -/
def exPrA : Produtos.Rec :=
  { id_produto := .num 1, nome := some "Produto 1", categoria := some "A", preco := .null }

/-- Product with price 10 in category `B`. -/
def exPrB : Produtos.Rec :=
  { id_produto := .num 2, nome := some "Produto 2", categoria := some "B", preco := .num 10 }

/-- Products demonstrating live-table writes: a valid `X`-category price,
two missing prices sharing product id 7 across categories `X` and `Y`,
and two valid `Y`-category prices. -/
def exQ1 : Produtos.Rec :=
  { id_produto := .num 1, nome := none, categoria := some "X", preco := .num 10 }

def exQA : Produtos.Rec :=
  { id_produto := .num 7, nome := none, categoria := some "X", preco := .null }

def exQB : Produtos.Rec :=
  { id_produto := .num 7, nome := none, categoria := some "Y", preco := .null }

def exQC : Produtos.Rec :=
  { id_produto := .num 9, nome := none, categoria := some "Y", preco := .num 10 }

def exQD : Produtos.Rec :=
  { id_produto := .num 10, nome := none, categoria := some "Y", preco := .num 30 }

/-- Employee row whose age can never be imputed (sole record, no values
anywhere). -/
def exGap : Empregados.Rec :=
  { id_empregado := .num 1, nome := some "A", cargo := some "X", idade := .null }

/-- Raw key cells `"1"`, `"01"` and `" "`: pairwise-distinct raw values
that the final numeric coercion of `fill_missing_employee_ids` maps to
colliding keys. -/
def exK1 : Empregados.Rec :=
  { id_empregado := .str "1", nome := some "a", cargo := some "X", idade := .num 30 }

def exK2 : Empregados.Rec :=
  { id_empregado := .str "01", nome := some "b", cargo := some "X", idade := .num 30 }

def exK3 : Empregados.Rec :=
  { id_empregado := .str " ", nome := some "c", cargo := some "X", idade := .num 30 }

/-- `exK3` after the missing-key fill next to the integer keys 1 and 2:
it receives the sequential key 3. -/
def exK3' : Empregados.Rec :=
  { exK3 with id_empregado := .num 3 }

/-- Sale with a valid unit value 8 (no product reference). -/
def exUVv : Vendas.Rec :=
  { Vendas.Rec.dflt with id_venda := .num 1, valor_unitario := .num 8 }

/-- Sale with a missing unit value (no product reference). -/
def exUVn : Vendas.Rec :=
  { Vendas.Rec.dflt with id_venda := .num 2, valor_unitario := .null }

/-! ### C1 — row-count invariance of the repair stages -/

/-- C1, counterexample: the claim includes duplicate removal among the
row-count-preserving stages, but `remove_duplicates` drops every
occurrence of a duplicated key after the first — a two-row table with a
repeated id comes out with one row. -/
theorem c1_remove_duplicates_drops_rows :
    (Empregados.remove_duplicates [exP, exP]).length ≠
      ([exP, exP] : Empregados.Table).length := by
  decide

/-! ### C2 — the imputation fallback chain -/

/-- C2, counterexample: `fill_missing_prices` has no global-median tier.
In a two-product table where the missing-price product is alone in its
category while the other category holds a valid price 10, the table-wide
median exists (`some 10`) yet the missing price is left unset — the claim
predicts it would be filled with the global median. -/
theorem c2_price_global_fallback_missing :
    (Produtos.fill_missing_prices [exPrA, exPrB]).map (fun r => r.preco) =
        [Cell.null, Cell.num 10] ∧
      medianQ (([exPrA, exPrB].filter
          (fun r => ! isNullCell r.preco)).filterMap (fun r => cellNum? r.preco)) =
        some 10 := by
  decide

/-! ### C7 — ComputationGap handling -/

/-- C7, counterexample: with no statistical basis anywhere,
`fill_missing_ages` does log a warning and leave the age unset, but the
employees repair stage then fails: `validate_age_range`'s
`astype(int)` raises on the still-missing age, so the ComputationGap is
fatal, contradicting the claim that the stage completes without
raising. -/
theorem c7_computation_gap_fatal_for_ages :
    Empregados.validate_age_range (Empregados.fill_missing_ages [exGap]) = none ∧
      Empregados.fill_missing_ages_warnings [exGap] = 1 := by
  decide

/-! ### C6 — key uniqueness after IdentifierRepair -/

/-- C6, counterexample: raw keys `"1"`, `"01"` and `" "` are
pairwise-distinct, so duplicate removal keeps all three rows; the blank
key `" "` is filled with `max+1 = 2`, and the final
`to_numeric(...).astype('Int64')` coercion maps `"1"` and `"01"` to the
same key 1 — three records but only two distinct key values. -/
theorem c6_key_collision_after_coercion :
    (Empregados.fill_missing_employee_ids
        (Empregados.remove_duplicates [exK1, exK2, exK3])).map
      (fun t => ((t.map (fun r => r.id_empregado)).dedup.length, t.length)) =
      some (2, 3) := by
  decide

/-! ### C8 — idempotence of CategoricalRepair's name correction -/

theorem isBlankStr_funcionario (x : String) :
    Empregados.isBlankStr ("Funcionário " ++ x) = false := by
  simp only [Empregados.isBlankStr, String.data_append, List.all_append,
    Bool.and_eq_false_imp]
  intro h
  exact absurd h (by decide)

theorem fixProductNameRow_idem (r : Produtos.Rec) :
    Produtos.fixProductNameRow (Produtos.fixProductNameRow r) =
      Produtos.fixProductNameRow r := by
  by_cases h : Produtos.pyStrNomeCell r.nome ≠ "Produto " ++ Empregados.pyStrId r.id_produto
  · have h1 : Produtos.fixProductNameRow r =
        { r with nome := some ("Produto " ++ Empregados.pyStrId r.id_produto) } := by
      simp [Produtos.fixProductNameRow, h]
    rw [h1]
    simp [Produtos.fixProductNameRow, Produtos.pyStrNomeCell]
  · have h1 : Produtos.fixProductNameRow r = r := by
      simp [Produtos.fixProductNameRow, h]
    rw [h1, h1]

theorem fixMissingNameRow_idem (r : Empregados.Rec) :
    Empregados.fixMissingNameRow (Empregados.fixMissingNameRow r) =
      Empregados.fixMissingNameRow r := by
  by_cases h : Empregados.isBlankStr (Empregados.pyStrNome r.nome) = true
  · have h1 : Empregados.fixMissingNameRow r =
        { r with nome := some ("Funcionário " ++ Empregados.pyStrId r.id_empregado) } := by
      simp [Empregados.fixMissingNameRow, h]
    rw [h1]
    simp [Empregados.fixMissingNameRow, Empregados.pyStrNome, isBlankStr_funcionario]
  · have h1 : Empregados.fixMissingNameRow r = r := by
      simp [Empregados.fixMissingNameRow, h]
    rw [h1, h1]

/-- C8: applying the name-correction twice equals applying it once, both
for the product normalisation (`fix_product_names`) and for the employee
blank-name fill (`fix_missing_names`). -/
theorem c8_name_correction_idempotent :
    (∀ t : Produtos.Table,
        Produtos.fix_product_names (Produtos.fix_product_names t) =
          Produtos.fix_product_names t) ∧
      (∀ t : Empregados.Table,
        Empregados.fix_missing_names (Empregados.fix_missing_names t) =
          Empregados.fix_missing_names t) := by
  constructor
  · intro t
    simp only [Produtos.fix_product_names, List.map_map]
    exact List.map_congr_left (fun r _ => fixProductNameRow_idem r)
  · intro t
    simp only [Empregados.fix_missing_names, List.map_map]
    exact List.map_congr_left (fun r _ => fixMissingNameRow_idem r)

/-! ### Row-count lemmas for the date stages -/

/-- The tier-1 loop body as a single `listModify` per iteration (the
`none` branch is the identity write). -/
theorem fillDates_step_eq (snap : Vendas.Table) :
    (fun (acc : Vendas.Table) (p : ℕ × Vendas.Rec) =>
      match medianDate (Vendas.employeePeerDates snap p.2.id_empregado) with
      | some med => listModify acc p.1 (Vendas.tier1Fill med)
      | none => acc) =
    (fun acc p => listModify acc p.1 (fun x =>
      match medianDate (Vendas.employeePeerDates snap p.2.id_empregado) with
      | some med => Vendas.tier1Fill med x
      | none => x)) := by
  funext acc p
  cases medianDate (Vendas.employeePeerDates snap p.2.id_empregado) with
  | none => rw [listModify_id]
  | some med => rfl

theorem length_fillDatesByEmployee (t : Vendas.Table) :
    (Vendas.fillDatesByEmployee t).length = t.length := by
  rw [Vendas.fillDatesByEmployee]
  split
  · rfl
  · dsimp only
    split
    · rfl
    · rw [fillDates_step_eq, foldl_listModify_length]

theorem length_fillRemainingWithPattern (t : Vendas.Table) :
    (Vendas.fillRemainingWithPattern t).length = t.length := by
  rw [Vendas.fillRemainingWithPattern]
  split
  · rfl
  · dsimp only
    split
    · rfl
    · split
      · simp
      · rfl

theorem length_handleExtremeMissingDates (now : Date) (t : Vendas.Table) :
    (Vendas.handleExtremeMissingDates now t).length = t.length := by
  rw [Vendas.handleExtremeMissingDates]
  split
  · rfl
  · simp

theorem length_parseValidateDateFormat (now : Date) (t : Vendas.Table) :
    (Vendas.parseValidateDateFormat now t).length = t.length := by
  simp [Vendas.parseValidateDateFormat]

theorem length_validate_and_fill_dates (now : Date) (t : Vendas.Table) :
    (Vendas.validate_and_fill_dates now t).length = t.length := by
  rw [Vendas.validate_and_fill_dates]
  split
  · exact length_parseValidateDateFormat now t
  · rw [length_parseValidateDateFormat, length_handleExtremeMissingDates,
      length_fillRemainingWithPattern, length_fillDatesByEmployee]

/-! ### C5 — the format-validation pass -/

/-- C5: `validate_and_fill_dates` runs the format-validation pass last,
over the table produced by the three filling tiers (the entire table,
whatever each row's tag currently is): a row whose date fails to parse
under `'%d/%m/%Y'` is overwritten with the current date and its tag set
to `formato_invalido`, regardless of the tag it carried; a row whose date
parses is left untouched. -/
theorem c5_format_validation_pass :
    (∀ (now : Date) (t : Vendas.Table),
      Vendas.validate_and_fill_dates now t =
        Vendas.parseValidateDateFormat now
          (if (t.filter (fun r => Vendas.dataMissing r)).isEmpty then t
           else
             Vendas.handleExtremeMissingDates now
               (Vendas.fillRemainingWithPattern (Vendas.fillDatesByEmployee t)))) ∧
    (∀ (now : Date) (t : Vendas.Table) (i : ℕ), i < t.length →
      (parseData ((t.getD i Vendas.Rec.dflt).data) = none →
        (Vendas.parseValidateDateFormat now t).getD i Vendas.Rec.dflt =
          { t.getD i Vendas.Rec.dflt with
              data := some (fmtDate now), data_imputada := true,
              metodo_imputacao := "formato_invalido" }) ∧
      (parseData ((t.getD i Vendas.Rec.dflt).data) ≠ none →
        (Vendas.parseValidateDateFormat now t).getD i Vendas.Rec.dflt =
          t.getD i Vendas.Rec.dflt)) := by
  refine ⟨fun now t => rfl, fun now t i hi => ⟨fun hbad => ?_, fun hok => ?_⟩⟩
  · rw [Vendas.parseValidateDateFormat,
      getD_map _ _ _ hi Vendas.Rec.dflt Vendas.Rec.dflt]
    rw [if_pos (by rw [hbad]; rfl)]
  · rw [Vendas.parseValidateDateFormat,
      getD_map _ _ _ hi Vendas.Rec.dflt Vendas.Rec.dflt]
    rw [if_neg (by simpa [Option.isNone_iff_eq_none] using hok)]

/-- A sale dated `31/02/2024` (an invalid day of month) carrying a tag
from a prior tier. -/
def exC5row : Vendas.Rec :=
  { Vendas.Rec.dflt with data := some "31/02/2024", metodo_imputacao := "mediana_empregado" }

/-- C5, witness: the row of `exC5row` is overwritten with the current
date and re-tagged `formato_invalido`, overriding its prior tag. -/
theorem c5_format_validation_pass_witness :
    (Vendas.parseValidateDateFormat ⟨12, 10, 2025⟩ [exC5row]).getD 0 Vendas.Rec.dflt =
      { exC5row with data := some "12/10/2025", data_imputada := true, metodo_imputacao := "formato_invalido" } := by
  have h := (c5_format_validation_pass.2 ⟨12, 10, 2025⟩ [exC5row] 0
    (by decide)).1 (by decide)
  rw [h]
  rfl

/-! ### C3 — post-DateImputer validity and row count -/

/-- C3: for any current date that is itself calendar-valid and within the
timestamp range, `validate_and_fill_dates` preserves the row count and
leaves every record with a date string that parses under the canonical
`DD/MM/YYYY` format. -/
theorem c3_dates_valid_and_row_count (now : Date) (t : Vendas.Table)
    (hnow : now.valid = true) :
    (Vendas.validate_and_fill_dates now t).length = t.length ∧
    ∀ r ∈ Vendas.validate_and_fill_dates now t,
      ∃ s, r.data = some s ∧ parseDate s ≠ none := by
  refine ⟨length_validate_and_fill_dates now t, ?_⟩
  intro r hr
  rw [Vendas.validate_and_fill_dates] at hr
  rw [Vendas.parseValidateDateFormat, List.mem_map] at hr
  obtain ⟨x, _, hx⟩ := hr
  by_cases hp : (parseData x.data).isNone = true
  · subst hx
    rw [if_pos hp]
    exact ⟨fmtDate now, rfl, by rw [parseDate_fmtDate hnow]; simp⟩
  · subst hx
    rw [if_neg hp]
    match hd : x.data with
    | none => rw [hd] at hp; exact absurd rfl hp
    | some s =>
      refine ⟨s, rfl, ?_⟩
      rw [hd] at hp
      simpa [parseData, Option.isNone_iff_eq_none] using hp

/-- C3, witness: a concrete two-row table (one valid date, one missing)
processed with current date 12/10/2025 keeps its two rows and both dates
parse. -/
theorem c3_dates_valid_and_row_count_witness :
    (Vendas.validate_and_fill_dates ⟨12, 10, 2025⟩
        [{ Vendas.Rec.dflt with data := some "05/05/2024" },
         Vendas.Rec.dflt]).length = 2 ∧
    ∀ r ∈ Vendas.validate_and_fill_dates ⟨12, 10, 2025⟩
        [{ Vendas.Rec.dflt with data := some "05/05/2024" },
         Vendas.Rec.dflt],
      ∃ s, r.data = some s ∧ parseDate s ≠ none := by
  have h := c3_dates_valid_and_row_count ⟨12, 10, 2025⟩
    [{ Vendas.Rec.dflt with data := some "05/05/2024" }, Vendas.Rec.dflt]
    (by decide)
  exact ⟨h.1, h.2⟩

/-! ### C4 — age bounds after the employees numeric stage -/

theorem mapM_option_mem {α β : Type} (f : α → Option β) :
    ∀ (l : List α) (l' : List β), l.mapM f = some l' →
      ∀ b ∈ l', ∃ a ∈ l, f a = some b := by
  intro l
  induction l with
  | nil =>
    intro l' h b hb
    simp only [List.mapM_nil, pure, Option.some_inj] at h
    subst h
    simp at hb
  | cons x xs ih =>
    intro l' h b hb
    rw [List.mapM_cons] at h
    cases hx : f x with
    | none => rw [hx] at h; simp [bind] at h
    | some y =>
      rw [hx] at h
      cases hxs : xs.mapM f with
      | none => rw [hxs] at h; simp [bind, pure] at h
      | some ys =>
        rw [hxs] at h
        simp only [bind, Option.some_bind, pure, Option.some_inj] at h
        subst h
        rcases List.mem_cons.mp hb with hb | hb
        · exact ⟨x, by simp, by rw [hx, hb]⟩
        · obtain ⟨a, ha, hfa⟩ := ih ys hxs b hb
          exact ⟨a, by simp [ha], hfa⟩

/-- Shape invariant: every age cell produced by `fill_missing_ages` is
either missing or numeric. -/
theorem ageStep_shape (acc : Empregados.Table × ℕ) (row : Empregados.Rec)
    (h : ∀ r ∈ acc.1, r.idade = Cell.null ∨ ∃ q : ℚ, r.idade = Cell.num q) :
    ∀ r ∈ (Empregados.ageStep acc row).1,
      r.idade = Cell.null ∨ ∃ q : ℚ, r.idade = Cell.num q := by
  rw [Empregados.ageStep]
  split
  · intro r hr
    rw [List.mem_map] at hr
    obtain ⟨x, hx, rfl⟩ := hr
    split
    · exact Or.inr ⟨_, rfl⟩
    · exact h x hx
  · dsimp only
    split
    · intro r hr
      rw [List.mem_map] at hr
      obtain ⟨x, hx, rfl⟩ := hr
      split
      · exact Or.inr ⟨_, rfl⟩
      · exact h x hx
    · exact h

theorem fold_ageStep_shape :
    ∀ (l : List Empregados.Rec) (acc : Empregados.Table × ℕ),
      (∀ r ∈ acc.1, r.idade = Cell.null ∨ ∃ q : ℚ, r.idade = Cell.num q) →
      ∀ r ∈ (l.foldl Empregados.ageStep acc).1,
        r.idade = Cell.null ∨ ∃ q : ℚ, r.idade = Cell.num q := by
  intro l
  induction l with
  | nil => intro acc h; exact h
  | cons x xs ih =>
    intro acc h
    exact ih (Empregados.ageStep acc x) (ageStep_shape acc x h)

theorem ages_shape (t : Empregados.Table) :
    ∀ r ∈ Empregados.fill_missing_ages t,
      r.idade = Cell.null ∨ ∃ q : ℚ, r.idade = Cell.num q := by
  show ∀ r ∈ (((t.map Empregados.numifyIdade).filter
      (fun r => isNullCell r.idade)).foldl Empregados.ageStep
      (t.map Empregados.numifyIdade, 0)).1, _
  apply fold_ageStep_shape
  intro r hr
  rw [List.mem_map] at hr
  obtain ⟨x, _, rfl⟩ := hr
  rw [Empregados.numifyIdade]
  dsimp only
  rw [numifyCell]
  cases toNumericCell x.idade with
  | none => exact Or.inl rfl
  | some q => exact Or.inr ⟨q, rfl⟩

/-- The clamping loop of `validate_age_range` as one `listModify` per
iteration. -/
theorem clamp_step_eq :
    (fun (acc : Empregados.Table) (p : ℕ × Empregados.Rec) =>
      match p.2.idade with
      | Cell.num q =>
        if q < 18 then
          listModify acc p.1 (fun x =>
            { x with idade := Cell.num 18, idade_ajustada := true })
        else if q > 70 then
          listModify acc p.1 (fun x =>
            { x with idade := Cell.num 70, idade_ajustada := true })
        else acc
      | _ => acc) =
    (fun acc p => listModify acc p.1 (fun x =>
      match p.2.idade with
      | Cell.num q =>
        if q < 18 then { x with idade := Cell.num 18, idade_ajustada := true }
        else if q > 70 then { x with idade := Cell.num 70, idade_ajustada := true }
        else x
      | _ => x)) := by
  funext acc p
  cases p.2.idade with
  | num q =>
    by_cases h1 : q < 18
    · simp only [if_pos h1]
    · by_cases h2 : q > 70
      · simp only [if_neg h1, if_pos h2]
      · simp only [if_neg h1, if_neg h2, listModify_id]
  | null => simp only [listModify_id]
  | str s => simp only [listModify_id]

/-- Every row surviving the clamping loop has a missing age or a numeric
age within the 18–70 band, provided the input ages are missing or
numeric. -/
theorem clamp_bounds (ta : Empregados.Table)
    (hshape : ∀ r ∈ ta, r.idade = Cell.null ∨ ∃ q : ℚ, r.idade = Cell.num q) :
    ∀ x ∈ (ta.enum.filter (fun p => Empregados.ageOutOfRange p.2)).foldl
        (fun acc p =>
          match p.2.idade with
          | Cell.num q =>
            if q < 18 then
              listModify acc p.1 (fun x =>
                { x with idade := Cell.num 18, idade_ajustada := true })
            else if q > 70 then
              listModify acc p.1 (fun x =>
                { x with idade := Cell.num 70, idade_ajustada := true })
            else acc
          | _ => acc) ta,
      x.idade = Cell.null ∨ ∃ q : ℚ, x.idade = Cell.num q ∧ 18 ≤ q ∧ q ≤ 70 := by
  intro x hx
  rw [clamp_step_eq] at hx
  obtain ⟨i, hi, hxi⟩ := List.mem_iff_getElem.mp hx
  have hl : i < ta.length := by
    rw [foldl_listModify_length] at hi
    exact hi
  rw [← List.getD_eq_getElem _ Empregados.Rec.dflt hi] at hxi
  rw [foldl_listModify_enum_filter ta _ _ Empregados.Rec.dflt i hl] at hxi
  have hmem : ta.getD i Empregados.Rec.dflt ∈ ta := by
    rw [List.getD_eq_getElem _ _ hl]
    exact List.getElem_mem hl
  rcases hshape _ hmem with hnull | ⟨q, hq⟩
  · rw [Empregados.ageOutOfRange] at hxi
    rw [hnull] at hxi
    rw [if_neg (by simp)] at hxi
    exact Or.inl (by rw [← hxi]; exact hnull)
  · rw [Empregados.ageOutOfRange] at hxi
    rw [hq] at hxi
    dsimp only at hxi
    by_cases h1 : q < 18
    · rw [if_pos (by simp [h1])] at hxi
      rw [if_pos h1] at hxi
      exact Or.inr ⟨18, by rw [← hxi], by norm_num, by norm_num⟩
    · by_cases h2 : q > 70
      · rw [if_pos (by simp [h2])] at hxi
        rw [if_neg h1, if_pos h2] at hxi
        exact Or.inr ⟨70, by rw [← hxi], by norm_num, by norm_num⟩
      · rw [if_neg (by simp [h1, h2])] at hxi
        exact Or.inr ⟨q, by rw [← hxi, hq], by linarith, by linarith⟩

/-- C4: whenever the employees numeric stage (`fill_missing_ages`
followed by `validate_age_range`) completes, every record's age is an
integer between 18 and 70 — clamping applies to the whole table, imputed
or not, and the final cast makes the age integral. -/
theorem c4_age_bounds (t tout : Empregados.Table)
    (h : Empregados.validate_age_range (Empregados.fill_missing_ages t) =
      some tout) :
    ∀ r ∈ tout, ∃ n : ℤ, r.idade = Cell.num (n : ℚ) ∧ 18 ≤ n ∧ n ≤ 70 := by
  intro r hr
  rw [Empregados.validate_age_range] at h
  obtain ⟨x, hx, hfx⟩ := mapM_option_mem _ _ _ h r hr
  have hb := clamp_bounds (Empregados.fill_missing_ages t) (ages_shape t) x hx
  rcases hb with hnull | ⟨q, hq, hq1, hq2⟩
  · rw [hnull] at hfx
    simp [pyIntOfCell] at hfx
  · rw [hq] at hfx
    simp only [pyIntOfCell, Option.some_inj] at hfx
    refine ⟨pyTrunc q, ?_, ?_, ?_⟩
    · rw [← hfx]
    · rw [pyTrunc, if_pos (by linarith), ratFloor_eq_floor]
      exact Int.le_floor.mpr (by exact_mod_cast hq1)
    · rw [pyTrunc, if_pos (by linarith), ratFloor_eq_floor]
      have hfl : (⌊q⌋ : ℚ) ≤ 70 := le_trans (Int.floor_le q) hq2
      exact_mod_cast hfl

/-- C4, witness: the single-employee table with age 50 passes the stage
unchanged and its age is an integer in the band. -/
theorem c4_age_bounds_witness :
    ∃ n : ℤ, exP.idade = Cell.num (n : ℚ) ∧ 18 ≤ n ∧ n ≤ 70 :=
  c4_age_bounds [exP] [exP] (by decide) exP (by simp)

/-! ### C7 — ComputationGap behaviour, amended -/

theorem mem_enumFrom_snd {α : Type} :
    ∀ (t : List α) (n : ℕ) (p : ℕ × α), p ∈ List.enumFrom n t → p.2 ∈ t := by
  intro t
  induction t with
  | nil => intro n p h; simp at h
  | cons x xs ih =>
    intro n p h
    simp only [List.enumFrom, List.mem_cons] at h
    rcases h with h | h
    · subst h; simp
    · exact List.mem_cons_of_mem _ (ih (n + 1) p h)

theorem ageStep_all_null (acc : Empregados.Table × ℕ) (row : Empregados.Rec)
    (h : ∀ r ∈ acc.1, r.idade = Cell.null) :
    Empregados.ageStep acc row = (acc.1, acc.2 + 1) := by
  have hgrp : acc.1.filter (fun x =>
      pdEqStr x.cargo row.cargo && pdNeCell x.id_empregado row.id_empregado &&
      ! isNullCell x.idade) = [] := by
    rw [List.filter_eq_nil_iff]
    intro a ha
    simp [h a ha, isNullCell]
  have hglob : acc.1.filter (fun x => ! isNullCell x.idade) = [] := by
    rw [List.filter_eq_nil_iff]
    intro a ha
    simp [h a ha, isNullCell]
  rw [Empregados.ageStep]
  dsimp only
  rw [hgrp, hglob]
  rfl

theorem fold_ageStep_all_null :
    ∀ (l : List Empregados.Rec) (acc : Empregados.Table × ℕ),
      (∀ r ∈ acc.1, r.idade = Cell.null) →
      l.foldl Empregados.ageStep acc = (acc.1, acc.2 + l.length) := by
  intro l
  induction l with
  | nil => intro acc _; simp
  | cons x xs ih =>
    intro acc h
    rw [List.foldl_cons, ageStep_all_null acc x h, ih (acc.1, acc.2 + 1) h]
    simp only [List.length_cons]
    rw [Nat.add_assoc, Nat.add_comm 1 xs.length]

theorem priceStep_all_null (acc : Produtos.Table × ℕ) (row : Produtos.Rec)
    (h : ∀ r ∈ acc.1, r.preco = Cell.null) :
    Produtos.priceStep acc row = (acc.1, acc.2 + 1) := by
  have hgrp : acc.1.filter (fun x =>
      pdEqStr x.categoria row.categoria && pdNeCell x.id_produto row.id_produto &&
      ! isNullCell x.preco) = [] := by
    rw [List.filter_eq_nil_iff]
    intro a ha
    simp [h a ha, isNullCell]
  rw [Produtos.priceStep]
  rw [hgrp]
  rfl

theorem fold_priceStep_all_null :
    ∀ (l : List Produtos.Rec) (acc : Produtos.Table × ℕ),
      (∀ r ∈ acc.1, r.preco = Cell.null) →
      l.foldl Produtos.priceStep acc = (acc.1, acc.2 + l.length) := by
  intro l
  induction l with
  | nil => intro acc _; simp
  | cons x xs ih =>
    intro acc h
    rw [List.foldl_cons, priceStep_all_null acc x h, ih (acc.1, acc.2 + 1) h]
    simp only [List.length_cons]
    rw [Nat.add_assoc, Nat.add_comm 1 xs.length]

/-- C7 amended: when a table offers no statistical basis at all, each
imputation function logs one warning per gap and leaves every field
unset, and the fill functions themselves return; but the employees stage
as a whole then fails — `validate_age_range` (the `astype(int)` cast)
returns no table — while the prices stage has no such cast and the gap
stays non-fatal. -/
theorem c7_amended_computation_gap :
    (∀ t : Empregados.Table, (∀ r ∈ t, toNumericCell r.idade = none) →
      (∀ r ∈ Empregados.fill_missing_ages t, r.idade = Cell.null) ∧
      Empregados.fill_missing_ages_warnings t = t.length ∧
      (t ≠ [] →
        Empregados.validate_age_range (Empregados.fill_missing_ages t) = none)) ∧
    (∀ p : Produtos.Table, (∀ r ∈ p, toNumericCell r.preco = none) →
      (∀ r ∈ Produtos.fill_missing_prices p, r.preco = Cell.null) ∧
      Produtos.fill_missing_prices_warnings p = p.length) := by
  constructor
  · intro t h
    have hnum : ∀ r ∈ t.map Empregados.numifyIdade, r.idade = Cell.null := by
      intro r hr
      rw [List.mem_map] at hr
      obtain ⟨x, hx, rfl⟩ := hr
      rw [Empregados.numifyIdade]
      dsimp only
      rw [numifyCell, h x hx]
    have hblanks : (t.map Empregados.numifyIdade).filter
        (fun r => isNullCell r.idade) = t.map Empregados.numifyIdade := by
      rw [List.filter_eq_self]
      intro a ha
      simp [hnum a ha, isNullCell]
    have hfold := fold_ageStep_all_null
      (((t.map Empregados.numifyIdade).filter (fun r => isNullCell r.idade)))
      (t.map Empregados.numifyIdade, 0) hnum
    have hfa : Empregados.fill_missing_ages t = t.map Empregados.numifyIdade := by
      show (((t.map Empregados.numifyIdade).filter
          (fun r => isNullCell r.idade)).foldl Empregados.ageStep
          (t.map Empregados.numifyIdade, 0)).1 = _
      rw [hfold]
    have hwarn : Empregados.fill_missing_ages_warnings t = t.length := by
      show (((t.map Empregados.numifyIdade).filter
          (fun r => isNullCell r.idade)).foldl Empregados.ageStep
          (t.map Empregados.numifyIdade, 0)).2 = _
      rw [hfold]
      simp [hblanks]
    refine ⟨by rw [hfa]; exact hnum, hwarn, fun hne => ?_⟩
    rw [hfa]
    rw [Empregados.validate_age_range]
    have hinv : (t.map Empregados.numifyIdade).enum.filter
        (fun p => Empregados.ageOutOfRange p.2) = [] := by
      rw [List.filter_eq_nil_iff]
      intro p hp
      have h2 := hnum p.2 (mem_enumFrom_snd _ 0 p hp)
      simp [Empregados.ageOutOfRange, h2]
    rw [hinv]
    dsimp only [List.foldl_nil]
    cases hmap : t.map Empregados.numifyIdade with
    | nil =>
      exact absurd (List.map_eq_nil_iff.mp hmap) hne
    | cons x rest =>
      have hxnull : x.idade = Cell.null := by
        have : x ∈ t.map Empregados.numifyIdade := by rw [hmap]; simp
        exact hnum x this
      rw [List.mapM_cons]
      rw [show pyIntOfCell x.idade = none from by rw [hxnull]; rfl]
      rfl
  · intro p h
    have hnum : ∀ r ∈ p.map Produtos.numifyPreco, r.preco = Cell.null := by
      intro r hr
      rw [List.mem_map] at hr
      obtain ⟨x, hx, rfl⟩ := hr
      rw [Produtos.numifyPreco]
      dsimp only
      rw [numifyCell, h x hx]
    have hblanks : (p.map Produtos.numifyPreco).filter
        (fun r => isNullCell r.preco) = p.map Produtos.numifyPreco := by
      rw [List.filter_eq_self]
      intro a ha
      simp [hnum a ha, isNullCell]
    have hfold := fold_priceStep_all_null
      (((p.map Produtos.numifyPreco).filter (fun r => isNullCell r.preco)))
      (p.map Produtos.numifyPreco, 0) hnum
    constructor
    · intro r hr
      have : Produtos.fill_missing_prices p = p.map Produtos.numifyPreco := by
        show (((p.map Produtos.numifyPreco).filter
            (fun r => isNullCell r.preco)).foldl Produtos.priceStep
            (p.map Produtos.numifyPreco, 0)).1 = _
        rw [hfold]
      rw [this] at hr
      exact hnum r hr
    · show (((p.map Produtos.numifyPreco).filter
          (fun r => isNullCell r.preco)).foldl Produtos.priceStep
          (p.map Produtos.numifyPreco, 0)).2 = _
      rw [hfold]
      simp [hblanks]

/-- C7 amended, witness: one employee with no age anywhere (warning
logged, field unset, stage then fails on the cast) and one product with
no price anywhere (warning logged, field unset, stage completes). -/
theorem c7_amended_computation_gap_witness :
    ((∀ r ∈ Empregados.fill_missing_ages [exGap], r.idade = Cell.null) ∧
      Empregados.fill_missing_ages_warnings [exGap] = 1 ∧
      Empregados.validate_age_range (Empregados.fill_missing_ages [exGap]) = none) ∧
    ((∀ r ∈ Produtos.fill_missing_prices [exPrA], r.preco = Cell.null) ∧
      Produtos.fill_missing_prices_warnings [exPrA] = 1) := by
  have ha := c7_amended_computation_gap.1 [exGap] (by decide)
  have hp := c7_amended_computation_gap.2 [exPrA] (by decide)
  exact ⟨⟨ha.1, ha.2.1, ha.2.2 (by decide)⟩, hp⟩

/-! ### C2 — the fallback chains, amended -/

theorem numifyCell_ne_str (c : Cell) (s : String) :
    numifyCell c ≠ Cell.str s := by
  rw [numifyCell]
  cases toNumericCell c <;> simp

theorem ageStep_length (acc : Empregados.Table × ℕ) (row : Empregados.Rec) :
    (Empregados.ageStep acc row).1.length = acc.1.length := by
  rw [Empregados.ageStep]
  dsimp only
  split
  · simp
  · split
    · simp
    · rfl

theorem ageStep_preserves_id (acc : Empregados.Table × ℕ)
    (row : Empregados.Rec) (j : ℕ) (d : Empregados.Rec) :
    ((Empregados.ageStep acc row).1.getD j d).id_empregado =
      (acc.1.getD j d).id_empregado := by
  rw [Empregados.ageStep]
  dsimp only
  by_cases hj : j < acc.1.length
  · split
    · rw [getD_map _ _ _ hj _ d]
      split <;> rfl
    · split
      · rw [getD_map _ _ _ hj _ d]
        split <;> rfl
      · rfl
  · have hj' := Nat.le_of_not_lt hj
    split
    · rw [List.getD_eq_default _ _ (by simpa using hj'),
        List.getD_eq_default _ _ hj']
    · split
      · rw [List.getD_eq_default _ _ (by simpa using hj'),
          List.getD_eq_default _ _ hj']
      · rfl

theorem ageStep_preserves_num (acc : Empregados.Table × ℕ)
    (row : Empregados.Rec) (j : ℕ) (d : Empregados.Rec)
    (h : ∃ q : ℚ, (acc.1.getD j d).idade = Cell.num q) :
    ∃ q : ℚ, ((Empregados.ageStep acc row).1.getD j d).idade = Cell.num q := by
  rw [Empregados.ageStep]
  dsimp only
  by_cases hj : j < acc.1.length
  · split
    · rw [getD_map _ _ _ hj _ d]
      split
      · exact ⟨_, rfl⟩
      · exact h
    · split
      · rw [getD_map _ _ _ hj _ d]
        split
        · exact ⟨_, rfl⟩
        · exact h
      · exact h
  · have hj' := Nat.le_of_not_lt hj
    split
    · rw [List.getD_eq_default _ _ (by simpa using hj')]
      rw [List.getD_eq_default _ _ hj'] at h
      exact h
    · split
      · rw [List.getD_eq_default _ _ (by simpa using hj')]
        rw [List.getD_eq_default _ _ hj'] at h
        exact h
      · exact h

theorem ageStep_fills (acc : Empregados.Table × ℕ) (row : Empregados.Rec)
    (hnum : ∃ r ∈ acc.1, ∃ q : ℚ, r.idade = Cell.num q)
    (j : ℕ) (d : Empregados.Rec) (hj : j < acc.1.length)
    (hmatch : pdEqCell ((acc.1.getD j d).id_empregado) row.id_empregado = true) :
    ∃ q : ℚ, ((Empregados.ageStep acc row).1.getD j d).idade = Cell.num q := by
  rw [Empregados.ageStep]
  dsimp only
  split
  · rw [getD_map _ _ _ hj _ d]
    rw [if_pos hmatch]
    exact ⟨_, rfl⟩
  · split
    · rw [getD_map _ _ _ hj _ d]
      rw [if_pos hmatch]
      exact ⟨_, rfl⟩
    · rename_i heq
      exfalso
      obtain ⟨r, hr, q, hq⟩ := hnum
      have hmem : q ∈ (acc.1.filter (fun x => ! isNullCell x.idade)).filterMap
          (fun x => cellNum? x.idade) := by
        rw [List.mem_filterMap]
        exact ⟨r, List.mem_filter.mpr ⟨hr, by simp [hq, isNullCell]⟩,
          by rw [hq]; rfl⟩
      exact medianQ_ne_none (List.ne_nil_of_mem hmem) heq

theorem fold_age_length :
    ∀ (l : List Empregados.Rec) (acc : Empregados.Table × ℕ),
      (l.foldl Empregados.ageStep acc).1.length = acc.1.length := by
  intro l
  induction l with
  | nil => intro acc; rfl
  | cons x xs ih =>
    intro acc
    rw [List.foldl_cons, ih, ageStep_length]

theorem fold_age_ids :
    ∀ (l : List Empregados.Rec) (acc : Empregados.Table × ℕ) (j : ℕ)
      (d : Empregados.Rec),
      ((l.foldl Empregados.ageStep acc).1.getD j d).id_empregado =
        (acc.1.getD j d).id_empregado := by
  intro l
  induction l with
  | nil => intro acc j d; rfl
  | cons x xs ih =>
    intro acc j d
    rw [List.foldl_cons, ih, ageStep_preserves_id]

theorem fold_age_mono :
    ∀ (l : List Empregados.Rec) (acc : Empregados.Table × ℕ) (j : ℕ)
      (d : Empregados.Rec),
      (∃ q : ℚ, (acc.1.getD j d).idade = Cell.num q) →
      ∃ q : ℚ, ((l.foldl Empregados.ageStep acc).1.getD j d).idade = Cell.num q := by
  intro l
  induction l with
  | nil => intro acc j d h; exact h
  | cons x xs ih =>
    intro acc j d h
    exact ih _ j d (ageStep_preserves_num acc x j d h)

theorem ageStep_preserves_exists_num (acc : Empregados.Table × ℕ)
    (row : Empregados.Rec)
    (h : ∃ r ∈ acc.1, ∃ q : ℚ, r.idade = Cell.num q) :
    ∃ r ∈ (Empregados.ageStep acc row).1, ∃ q : ℚ, r.idade = Cell.num q := by
  obtain ⟨r, hr, q, hq⟩ := h
  obtain ⟨j, hj, hrj⟩ := List.mem_iff_getElem.mp hr
  have hj2 : j < (Empregados.ageStep acc row).1.length := by
    rw [ageStep_length]; exact hj
  have hnum := ageStep_preserves_num acc row j Empregados.Rec.dflt
    ⟨q, by rw [List.getD_eq_getElem _ _ hj, hrj]; exact hq⟩
  refine ⟨(Empregados.ageStep acc row).1.getD j Empregados.Rec.dflt, ?_, hnum⟩
  rw [List.getD_eq_getElem _ _ hj2]
  exact List.getElem_mem hj2

theorem fold_age_fills :
    ∀ (l : List Empregados.Rec) (acc : Empregados.Table × ℕ),
      (∃ r ∈ acc.1, ∃ q : ℚ, r.idade = Cell.num q) →
      ∀ ρ ∈ l, ∀ (j : ℕ) (d : Empregados.Rec), j < acc.1.length →
        pdEqCell ((acc.1.getD j d).id_empregado) ρ.id_empregado = true →
        ∃ q : ℚ, ((l.foldl Empregados.ageStep acc).1.getD j d).idade =
          Cell.num q := by
  intro l
  induction l with
  | nil => intro acc _ ρ hρ; simp at hρ
  | cons x xs ih =>
    intro acc hnum ρ hρ j d hj hmatch
    rw [List.foldl_cons]
    rcases List.mem_cons.mp hρ with hρ | hρ
    · subst hρ
      exact fold_age_mono xs _ j d (ageStep_fills acc ρ hnum j d hj hmatch)
    · exact ih (Empregados.ageStep acc x)
        (ageStep_preserves_exists_num acc x hnum) ρ hρ j d
        (by rw [ageStep_length]; exact hj)
        (by rw [ageStep_preserves_id]; exact hmatch)

/-- C2 amended, part for ages: whenever some age value exists anywhere in
the table (and ids are non-null, so the id-keyed write can reach each
row), the group-then-global chain fills every missing age — an age is
left unset only when no value exists anywhere. -/
theorem ages_chain_total (t : Empregados.Table)
    (hid : ∀ r ∈ t, r.id_empregado ≠ Cell.null)
    (hex : ∃ r ∈ t, toNumericCell r.idade ≠ none) :
    ∀ r ∈ Empregados.fill_missing_ages t, r.idade ≠ Cell.null := by
  intro r hr
  have hshow : Empregados.fill_missing_ages t =
      (((t.map Empregados.numifyIdade).filter
        (fun r => isNullCell r.idade)).foldl Empregados.ageStep
        (t.map Empregados.numifyIdade, 0)).1 := rfl
  rw [hshow] at hr
  obtain ⟨i, hi, hri⟩ := List.mem_iff_getElem.mp hr
  have hlen : i < (t.map Empregados.numifyIdade).length := by
    rw [← fold_age_length (((t.map Empregados.numifyIdade).filter
      (fun r => isNullCell r.idade))) (t.map Empregados.numifyIdade, 0)]
    exact hi
  have hlent : i < t.length := by simpa using hlen
  have hti : (t.map Empregados.numifyIdade).getD i Empregados.Rec.dflt =
      Empregados.numifyIdade (t.getD i Empregados.Rec.dflt) :=
    getD_map _ _ _ hlent _ Empregados.Rec.dflt
  have hmem_t : t.getD i Empregados.Rec.dflt ∈ t := by
    rw [List.getD_eq_getElem _ _ hlent]
    exact List.getElem_mem hlent
  have hex2 : ∃ r ∈ t.map Empregados.numifyIdade, ∃ q : ℚ,
      r.idade = Cell.num q := by
    obtain ⟨r0, hr0, hne⟩ := hex
    cases hc : toNumericCell r0.idade with
    | none => exact absurd hc hne
    | some q =>
      refine ⟨Empregados.numifyIdade r0, List.mem_map_of_mem _ hr0, q, ?_⟩
      rw [Empregados.numifyIdade]
      dsimp only
      rw [numifyCell, hc]
  have hrge : r = (((t.map Empregados.numifyIdade).filter
      (fun r => isNullCell r.idade)).foldl Empregados.ageStep
      (t.map Empregados.numifyIdade, 0)).1.getD i Empregados.Rec.dflt := by
    rw [List.getD_eq_getElem _ _ hi, hri]
  cases hcell : ((t.map Empregados.numifyIdade).getD i
      Empregados.Rec.dflt).idade with
  | num q =>
    have := fold_age_mono (((t.map Empregados.numifyIdade).filter
      (fun r => isNullCell r.idade))) (t.map Empregados.numifyIdade, 0) i
      Empregados.Rec.dflt ⟨q, hcell⟩
    obtain ⟨q', hq'⟩ := this
    rw [hrge, hq']
    simp
  | str s =>
    exfalso
    rw [hti] at hcell
    exact numifyCell_ne_str _ s hcell
  | null =>
    have hrow_mem : (t.map Empregados.numifyIdade).getD i Empregados.Rec.dflt ∈
        (t.map Empregados.numifyIdade).filter (fun r => isNullCell r.idade) := by
      rw [List.mem_filter]
      refine ⟨?_, by rw [hcell]; rfl⟩
      rw [List.getD_eq_getElem _ _ hlen]
      exact List.getElem_mem hlen
    have hidnn : ((t.map Empregados.numifyIdade).getD i
        Empregados.Rec.dflt).id_empregado ≠ Cell.null := by
      rw [hti]
      exact hid (t.getD i Empregados.Rec.dflt) hmem_t
    have hfill := fold_age_fills (((t.map Empregados.numifyIdade).filter
      (fun r => isNullCell r.idade))) (t.map Empregados.numifyIdade, 0) hex2
      _ hrow_mem i Empregados.Rec.dflt hlen (pdEqCell_refl hidnn)
    obtain ⟨q', hq'⟩ := hfill
    rw [hrge, hq']
    simp

/-- Invariant of the `fill_missing_prices` loop relative to a reference
table `pn` and a row index `i`: lengths, ids and categories never change,
and every row sharing row `i`'s category (row `i` included) still has a
missing price. -/
def PriceInv (pn : Produtos.Table) (i : ℕ) (acc : Produtos.Table) : Prop :=
  acc.length = pn.length ∧
  (∀ j, (acc.getD j Produtos.Rec.dflt).id_produto =
    (pn.getD j Produtos.Rec.dflt).id_produto) ∧
  (∀ j, (acc.getD j Produtos.Rec.dflt).categoria =
    (pn.getD j Produtos.Rec.dflt).categoria) ∧
  (∀ j, j < pn.length →
    (pdEqStr ((pn.getD j Produtos.Rec.dflt).categoria)
      ((pn.getD i Produtos.Rec.dflt).categoria) = true ∨ j = i) →
    (acc.getD j Produtos.Rec.dflt).preco = Cell.null)

theorem priceStep_inv (pn : Produtos.Table) (i : ℕ)
    (hids : ∀ j, j < pn.length → ∀ k, k < pn.length → j ≠ k →
      pdEqCell ((pn.getD j Produtos.Rec.dflt).id_produto)
        ((pn.getD k Produtos.Rec.dflt).id_produto) = false)
    (acc : Produtos.Table × ℕ) (ρ : Produtos.Rec) (hρm : ρ ∈ pn)
    (hinv : PriceInv pn i acc.1) :
    PriceInv pn i (Produtos.priceStep acc ρ).1 := by
  obtain ⟨hlen, hid2, hcat, hS⟩ := hinv
  obtain ⟨k, hk, hkρ⟩ := List.mem_iff_getElem.mp hρm
  have hkρ' : pn.getD k Produtos.Rec.dflt = ρ := by
    rw [List.getD_eq_getElem _ _ hk, hkρ]
  rw [Produtos.priceStep]
  split
  · rename_i m heq
    by_cases hkS : pdEqStr ((pn.getD k Produtos.Rec.dflt).categoria)
        ((pn.getD i Produtos.Rec.dflt).categoria) = true ∨ k = i
    · exfalso
      have hfil : acc.1.filter (fun x =>
          pdEqStr x.categoria ρ.categoria && pdNeCell x.id_produto ρ.id_produto &&
          ! isNullCell x.preco) = [] := by
        rw [List.filter_eq_nil_iff]
        intro x hx hcond
        obtain ⟨j2, hj2, hxj2⟩ := List.mem_iff_getElem.mp hx
        have hxj3 : acc.1.getD j2 Produtos.Rec.dflt = x := by
          rw [List.getD_eq_getElem _ _ hj2, hxj2]
        simp only [Bool.and_eq_true] at hcond
        obtain ⟨⟨hcnd1, _⟩, hcnd3⟩ := hcond
        have hxcat : x.categoria = (pn.getD j2 Produtos.Rec.dflt).categoria := by
          rw [← hxj3]
          exact hcat j2
        have hρcat : ρ.categoria = (pn.getD k Produtos.Rec.dflt).categoria := by
          rw [hkρ']
        rw [hxcat, hρcat] at hcnd1
        have hj2S : pdEqStr ((pn.getD j2 Produtos.Rec.dflt).categoria)
            ((pn.getD i Produtos.Rec.dflt).categoria) = true := by
          rcases hkS with hkS | hkS
          · exact pdEqStr_trans hcnd1 hkS
          · rw [hkS] at hcnd1
            exact hcnd1
        have hj2lt : j2 < pn.length := by rw [← hlen]; exact hj2
        have hnull := hS j2 hj2lt (Or.inl hj2S)
        rw [hxj3] at hnull
        simp [hnull, isNullCell] at hcnd3
      rw [hfil] at heq
      simp [medianQ] at heq
    · refine ⟨by simp [hlen], ?_, ?_, ?_⟩
      · intro j
        by_cases hj : j < acc.1.length
        · rw [getD_map _ _ _ hj _ Produtos.Rec.dflt]
          split
          · rw [← hid2 j]
          · exact hid2 j
        · have hj' := Nat.le_of_not_lt hj
          rw [List.getD_eq_default _ _ (by simpa using hj'),
            List.getD_eq_default _ _ (by rw [← hlen]; exact hj')]
      · intro j
        by_cases hj : j < acc.1.length
        · rw [getD_map _ _ _ hj _ Produtos.Rec.dflt]
          split
          · rw [← hcat j]
          · exact hcat j
        · have hj' := Nat.le_of_not_lt hj
          rw [List.getD_eq_default _ _ (by simpa using hj'),
            List.getD_eq_default _ _ (by rw [← hlen]; exact hj')]
      · intro j hjlt hjS
        have hjacc : j < acc.1.length := by rw [hlen]; exact hjlt
        rw [getD_map _ _ _ hjacc _ Produtos.Rec.dflt]
        by_cases hjk : j = k
        · subst hjk
          exact absurd hjS hkS
        · have hcnd : pdEqCell ((acc.1.getD j Produtos.Rec.dflt).id_produto)
              ρ.id_produto = false := by
            rw [hid2 j, ← hkρ']
            exact hids j hjlt k hk hjk
          rw [if_neg (by simpa using hcnd)]
          exact hS j hjlt hjS
  · exact ⟨hlen, hid2, hcat, hS⟩

theorem fold_priceStep_inv (pn : Produtos.Table) (i : ℕ)
    (hids : ∀ j, j < pn.length → ∀ k, k < pn.length → j ≠ k →
      pdEqCell ((pn.getD j Produtos.Rec.dflt).id_produto)
        ((pn.getD k Produtos.Rec.dflt).id_produto) = false) :
    ∀ (l : List Produtos.Rec) (acc : Produtos.Table × ℕ),
      (∀ ρ ∈ l, ρ ∈ pn) → PriceInv pn i acc.1 →
      PriceInv pn i (l.foldl Produtos.priceStep acc).1 := by
  intro l
  induction l with
  | nil => intro acc _ h; exact h
  | cons x xs ih =>
    intro acc hl h
    rw [List.foldl_cons]
    exact ih _ (fun ρ hρ => hl ρ (List.mem_cons_of_mem _ hρ))
      (priceStep_inv pn i hids acc x (hl x (by simp)) h)

/-- C2 amended, part for prices: `fill_missing_prices` has no global
tier.  If every other product sharing row `i`'s category has no usable
price, row `i`'s missing price stays missing — whatever valid prices
exist in other categories.  (Product ids are assumed pairwise distinct,
as duplicate removal guarantees in the pipeline.) -/
theorem prices_group_only (p : Produtos.Table) (i : ℕ) (hi : i < p.length)
    (hids : ∀ j, j < p.length → ∀ k, k < p.length → j ≠ k →
      pdEqCell ((p.getD j Produtos.Rec.dflt).id_produto)
        ((p.getD k Produtos.Rec.dflt).id_produto) = false)
    (hmiss : toNumericCell ((p.getD i Produtos.Rec.dflt).preco) = none)
    (hdead : ∀ j, j < p.length → j ≠ i →
      pdEqStr ((p.getD j Produtos.Rec.dflt).categoria)
        ((p.getD i Produtos.Rec.dflt).categoria) = true →
      toNumericCell ((p.getD j Produtos.Rec.dflt).preco) = none) :
    ((Produtos.fill_missing_prices p).getD i Produtos.Rec.dflt).preco =
      Cell.null := by
  have hpn : ∀ j, j < p.length →
      (p.map Produtos.numifyPreco).getD j Produtos.Rec.dflt =
        Produtos.numifyPreco (p.getD j Produtos.Rec.dflt) := by
    intro j hj
    exact getD_map _ _ _ hj _ Produtos.Rec.dflt
  have hlen : (p.map Produtos.numifyPreco).length = p.length := by simp
  have hidsn : ∀ j, j < (p.map Produtos.numifyPreco).length →
      ∀ k, k < (p.map Produtos.numifyPreco).length → j ≠ k →
      pdEqCell (((p.map Produtos.numifyPreco).getD j
        Produtos.Rec.dflt).id_produto)
        (((p.map Produtos.numifyPreco).getD k
          Produtos.Rec.dflt).id_produto) = false := by
    intro j hj k hk hjk
    rw [hlen] at hj hk
    rw [hpn j hj, hpn k hk]
    exact hids j hj k hk hjk
  have hinit : PriceInv (p.map Produtos.numifyPreco) i
      (p.map Produtos.numifyPreco) := by
    refine ⟨rfl, fun j => rfl, fun j => rfl, ?_⟩
    intro j hjlt hjS
    rw [hlen] at hjlt
    rw [hpn j hjlt]
    show numifyCell ((p.getD j Produtos.Rec.dflt).preco) = Cell.null
    by_cases hji : j = i
    · subst hji
      rw [numifyCell, hmiss]
    · have hcatj : ((p.map Produtos.numifyPreco).getD j
          Produtos.Rec.dflt).categoria = (p.getD j Produtos.Rec.dflt).categoria := by
        rw [hpn j hjlt]; rfl
      have hcati : ((p.map Produtos.numifyPreco).getD i
          Produtos.Rec.dflt).categoria = (p.getD i Produtos.Rec.dflt).categoria := by
        rw [hpn i hi]; rfl
      rcases hjS with hjS | hjS
      · rw [hcatj, hcati] at hjS
        rw [numifyCell, hdead j hjlt hji hjS]
      · exact absurd hjS hji
  have hfold := fold_priceStep_inv (p.map Produtos.numifyPreco) i hidsn
    ((p.map Produtos.numifyPreco).filter (fun r => isNullCell r.preco))
    (p.map Produtos.numifyPreco, 0)
    (fun ρ hρ => List.mem_of_mem_filter hρ) hinit
  have hshow : Produtos.fill_missing_prices p =
      (((p.map Produtos.numifyPreco).filter
        (fun r => isNullCell r.preco)).foldl Produtos.priceStep
        (p.map Produtos.numifyPreco, 0)).1 := rfl
  rw [hshow]
  exact hfold.2.2.2 i (by rw [hlen]; exact hi) (Or.inr rfl)

theorem mergeCategoria_nil (v : Vendas.Table) :
    Vendas.mergeCategoria v [] =
      v.map (fun r => (r, (none : Option String))) := by
  induction v with
  | nil => rfl
  | cons x xs ih =>
    simp only [Vendas.mergeCategoria, List.flatMap_cons] at ih ⊢
    rw [ih]
    rfl

theorem dedupFirst_all_mem {α : Type} [DecidableEq α] :
    ∀ (l : List α) (seen : List α), (∀ a ∈ l, a ∈ seen) →
      Vendas.dedupFirst l seen = [] := by
  intro l
  induction l with
  | nil => intro seen _; rfl
  | cons x xs ih =>
    intro seen h
    rw [Vendas.dedupFirst, if_pos (h x (by simp))]
    exact ih seen (fun a ha => h a (List.mem_cons_of_mem _ ha))

theorem dedupFirst_map_none {α : Type} (l : List α) (h : l ≠ []) :
    Vendas.dedupFirst ((l.map (fun r => (r, (none : Option String)))).map
      Prod.snd) [] = [none] := by
  cases l with
  | nil => exact absurd rfl h
  | cons x xs =>
    simp only [List.map_cons, List.map_map]
    rw [Vendas.dedupFirst, if_neg (by simp)]
    rw [dedupFirst_all_mem _ _ (by intro a ha; simp at ha; simp [ha])]

/-- C2 amended, part for unit values: when no sale's product category can
be resolved (empty product lookup), the global-median branch covers all
of them — with any valid unit value present, no missing unit value
survives `fill_missing_unit_values`. -/
theorem unit_values_global_when_no_category (v : Vendas.Table)
    (hex : ∃ r ∈ v, toNumericCell r.valor_unitario ≠ none) :
    ∀ r ∈ Vendas.fill_missing_unit_values v [],
      r.valor_unitario ≠ Cell.null := by
  intro r hr
  rw [Vendas.fill_missing_unit_values] at hr
  rw [Vendas.fill_missing_unit_values_core] at hr
  rw [mergeCategoria_nil] at hr
  dsimp only at hr
  by_cases hbe : (((v.map Vendas.numifyValorUnit).map
      (fun r => (r, (none : Option String)))).filter
      (fun m => isNullCell m.1.valor_unitario)).isEmpty = true
  · rw [if_pos hbe] at hr
    rw [List.isEmpty_iff] at hbe
    rw [List.map_map, List.mem_map] at hr
    obtain ⟨x, hx, rfl⟩ := hr
    have hnotnull : ¬ (isNullCell x.valor_unitario = true) := by
      intro hnull
      have hmem : (x, (none : Option String)) ∈
          ((v.map Vendas.numifyValorUnit).map
            (fun r => (r, (none : Option String)))).filter
            (fun m => isNullCell m.1.valor_unitario) := by
        rw [List.mem_filter]
        exact ⟨List.mem_map_of_mem _ hx, hnull⟩
      rw [hbe] at hmem
      simp at hmem
    intro hcontra
    simp only [Function.comp_apply] at hcontra
    exact hnotnull (by rw [hcontra]; rfl)
  · rw [if_neg hbe] at hr
    have hvne : v.map Vendas.numifyValorUnit ≠ [] := by
      intro hnil
      rw [hnil] at hbe
      simp at hbe
    rw [dedupFirst_map_none _ hvne] at hr
    rw [List.foldl_cons, List.foldl_nil] at hr
    dsimp only at hr
    have hglob : ∃ q : ℚ, q ∈ ((((v.map Vendas.numifyValorUnit).map
        (fun r => (r, (none : Option String)))).filter
        (fun m => ! isNullCell m.1.valor_unitario)).filterMap
        (fun m => cellNum? m.1.valor_unitario)) := by
      obtain ⟨r0, hr0, hne⟩ := hex
      cases hc : toNumericCell r0.valor_unitario with
      | none => exact absurd hc hne
      | some q =>
        refine ⟨q, ?_⟩
        rw [List.mem_filterMap]
        refine ⟨(Vendas.numifyValorUnit r0, none), ?_, ?_⟩
        · rw [List.mem_filter]
          refine ⟨List.mem_map_of_mem _ (List.mem_map_of_mem _ hr0), ?_⟩
          show (! isNullCell (Vendas.numifyValorUnit r0).valor_unitario) = true
          have : (Vendas.numifyValorUnit r0).valor_unitario = Cell.num q := by
            show numifyCell r0.valor_unitario = Cell.num q
            rw [numifyCell, hc]
          rw [this]
          rfl
        · show cellNum? (Vendas.numifyValorUnit r0).valor_unitario = some q
          have : (Vendas.numifyValorUnit r0).valor_unitario = Cell.num q := by
            show numifyCell r0.valor_unitario = Cell.num q
            rw [numifyCell, hc]
          rw [this]
          rfl
    obtain ⟨q0, hq0⟩ := hglob
    have hsem : ¬ ((((v.map Vendas.numifyValorUnit).map
        (fun r => (r, (none : Option String)))).filter
        (fun m => m.2.isNone && isNullCell m.1.valor_unitario)).isEmpty = true) := by
      intro hsem
      rw [List.isEmpty_iff] at hsem
      rw [List.isEmpty_iff] at hbe
      apply hbe
      rw [List.filter_eq_nil_iff] at hsem ⊢
      intro m hm hnull
      rw [List.mem_map] at hm
      obtain ⟨x, hx, rfl⟩ := hm
      exact hsem (x, none) (List.mem_map_of_mem _ hx) (by simp [hnull])
    rw [if_neg hsem] at hr
    cases hmed : medianQ ((((v.map Vendas.numifyValorUnit).map
        (fun r => (r, (none : Option String)))).filter
        (fun m => ! isNullCell m.1.valor_unitario)).filterMap
        (fun m => cellNum? m.1.valor_unitario)) with
    | none => exact absurd hmed (medianQ_ne_none (List.ne_nil_of_mem hq0))
    | some med =>
      rw [hmed] at hr
      dsimp only at hr
      rw [List.mem_map] at hr
      obtain ⟨m, hm, rfl⟩ := hr
      rw [List.mem_map] at hm
      obtain ⟨mm, hmm, rfl⟩ := hm
      rw [List.mem_map] at hmm
      obtain ⟨x, hx, rfl⟩ := hmm
      by_cases hcond : ((none : Option String).isNone &&
          isNullCell x.valor_unitario) = true
      · rw [if_pos hcond]
        intro hcontra
        simp at hcontra
      · rw [if_neg hcond]
        intro hcontra
        apply hcond
        simp only [Option.isNone_none, Bool.true_and]
        rw [hcontra]
        rfl

/-! ### C9 — tier-1 peer dates come from a pre-pass snapshot -/

/-- C9: the output of tier-1 date imputation is a pointwise function of
the *original* table.  A row that already has a date is untouched; a
missing-date row is filled with the median of the peer dates of its
employee computed over the snapshot of originally-valid rows — so a date
imputed during the pass is never used as a peer date for another sale of
the same employee in the same run. -/
theorem c9_tier1_snapshot_peers (t : Vendas.Table) (i : ℕ) (hi : i < t.length) :
    (Vendas.fillDatesByEmployee t).getD i Vendas.Rec.dflt =
      (if Vendas.dataMissing (t.getD i Vendas.Rec.dflt) then
        match medianDate (Vendas.employeePeerDates
            (t.filter (fun r => ! Vendas.dataMissing r))
            ((t.getD i Vendas.Rec.dflt).id_empregado)) with
        | some med => Vendas.tier1Fill med (t.getD i Vendas.Rec.dflt)
        | none => t.getD i Vendas.Rec.dflt
       else t.getD i Vendas.Rec.dflt) := by
  rw [Vendas.fillDatesByEmployee]
  split
  · rename_i he
    have hf := enum_filter_isEmpty_pred t (fun p => Vendas.dataMissing p.2)
      Vendas.Rec.dflt i hi he
    rw [if_neg (by simpa using hf)]
  · dsimp only
    split
    · rename_i he
      rw [List.isEmpty_iff] at he
      rw [he]
      have hpeers : Vendas.employeePeerDates []
          ((t.getD i Vendas.Rec.dflt).id_empregado) = [] := rfl
      rw [hpeers]
      split <;> rfl
    · rw [fillDates_step_eq]
      rw [foldl_listModify_enum_filter t _ _ Vendas.Rec.dflt i hi]

/-- A sales table for the C9 witness: two originally-valid dates for
employee 7 followed by two missing ones. -/
def exT9 : Vendas.Table :=
  [{ Vendas.Rec.dflt with id_empregado := .num 7, data := some "01/01/2024" },
   { Vendas.Rec.dflt with id_empregado := .num 7, data := some "03/01/2024" },
   { Vendas.Rec.dflt with id_empregado := .num 7 },
   { Vendas.Rec.dflt with id_empregado := .num 7 }]

/-- C9, witness: the fourth row of `exT9` — processed after the third
missing row has already been filled — still receives the median of the
two *originally*-valid dates, `02/01/2024`. -/
theorem c9_tier1_snapshot_peers_witness :
    (Vendas.fillDatesByEmployee exT9).getD 3 Vendas.Rec.dflt =
      Vendas.tier1Fill ⟨2, 1, 2024⟩ (exT9.getD 3 Vendas.Rec.dflt) := by
  have h := c9_tier1_snapshot_peers exT9 3 (by decide)
  rw [h]
  decide

/-! ### C10 — live-table processing order in age and price imputation -/

/-- C10: missing records are processed in table order over the live
table.  With employees `P (X, 50)`, `Q (Y, 10)` and two missing ages
`A (cargo X)` and `B (cargo W, no peers)`, `A` is filled first from its
group (50), and `B`'s global median is then computed over `{50, 10, 50}`
— it receives 50.  With `B` placed before `A`, `B`'s global median is
computed over the original `{50, 10}` and it receives 30 instead: the
imputed result depends on the position of the other missing record.  The
third table shows a record tagged `mediana_cargo` whose group median
consists solely of a value imputed earlier in the same run, and the
product table shows the same live-table behaviour for
`fill_missing_prices` (the id-7 rows are rewritten when the later missing
row is processed). -/
theorem c10_live_table_order_dependence :
    ((Empregados.fill_missing_ages [exP, exQ, exA, exB]).map
        (fun r => (r.idade, r.metodo_imputacao_idade)) =
      [(Cell.num 50, ""), (Cell.num 10, ""), (Cell.num 50, "mediana_cargo"),
        (Cell.num 50, "mediana_global")]) ∧
    ((Empregados.fill_missing_ages [exP, exQ, exB, exA]).map
        (fun r => (r.idade, r.metodo_imputacao_idade)) =
      [(Cell.num 50, ""), (Cell.num 10, ""), (Cell.num 30, "mediana_global"),
        (Cell.num 50, "mediana_cargo")]) ∧
    ((Empregados.fill_missing_ages [exC, exA, exBX]).map
        (fun r => (r.idade, r.metodo_imputacao_idade)) =
      [(Cell.num 30, ""), (Cell.num 30, "mediana_global"),
        (Cell.num 30, "mediana_cargo")]) ∧
    ((Produtos.fill_missing_prices [exQ1, exQA, exQB, exQC, exQD]).map
        (fun r => r.preco) =
      [Cell.num 10, Cell.num 20, Cell.num 20, Cell.num 10, Cell.num 30]) := by
  decide

/-! ### C1 — support: row-count preservation of the repair stages -/

theorem mapM_some_length {α β : Type} (f : α → Option β) :
    ∀ (l : List α) (l' : List β), l.mapM f = some l' → l'.length = l.length := by
  intro l
  induction l with
  | nil =>
    intro l' h
    simp only [List.mapM_nil, pure, Option.some_inj] at h
    subst h
    rfl
  | cons x xs ih =>
    intro l' h
    rw [List.mapM_cons] at h
    cases hx : f x with
    | none => rw [hx] at h; simp [bind] at h
    | some y =>
      rw [hx] at h
      cases hxs : xs.mapM f with
      | none => rw [hxs] at h; simp [bind, pure] at h
      | some ys =>
        rw [hxs] at h
        simp only [bind, Option.some_bind, pure, Option.some_inj] at h
        subst h
        simp only [List.length_cons, ih ys hxs]

theorem dedupByKey_eq_self {α : Type} (key : α → Cell) :
    ∀ (l : List α) (seen : List Cell), ((l.map key).Nodup) →
      (∀ x ∈ l, key x ∉ seen) → dedupByKey key l seen = l := by
  intro l
  induction l with
  | nil => intro seen _ _; rfl
  | cons y ys ih =>
    intro seen hnd hs
    simp only [List.map_cons, List.nodup_cons] at hnd
    rw [dedupByKey, if_neg (hs y (List.mem_cons_self _ _))]
    rw [ih (key y :: seen) hnd.2 (fun x hx => by
      intro hc
      rcases List.mem_cons.mp hc with hc | hc
      · exact hnd.1 (by rw [← hc]; exact List.mem_map_of_mem key hx)
      · exact hs x (List.mem_cons_of_mem _ hx) hc)]

theorem length_fill_missing_ages (t : Empregados.Table) :
    (Empregados.fill_missing_ages t).length = t.length := by
  rw [Empregados.fill_missing_ages, Empregados.fill_missing_ages_core]
  rw [fold_age_length]
  simp

theorem priceStep_length (acc : Produtos.Table × ℕ) (row : Produtos.Rec) :
    (Produtos.priceStep acc row).1.length = acc.1.length := by
  rw [Produtos.priceStep]
  cases hm : medianQ ((acc.1.filter (fun x =>
      pdEqStr x.categoria row.categoria &&
      pdNeCell x.id_produto row.id_produto &&
      ! isNullCell x.preco)).filterMap (fun x => cellNum? x.preco)) with
  | some m =>
    show (acc.1.map (fun x =>
      if pdEqCell x.id_produto row.id_produto then
        { x with preco := Cell.num (pyRound2 m) }
      else x)).length = acc.1.length
    exact List.length_map _ _
  | none => rfl

theorem fold_price_length :
    ∀ (l : List Produtos.Rec) (acc : Produtos.Table × ℕ),
      (l.foldl Produtos.priceStep acc).1.length = acc.1.length := by
  intro l
  induction l with
  | nil => intro acc; rfl
  | cons x xs ih =>
    intro acc
    rw [List.foldl_cons, ih, priceStep_length]

theorem length_fill_missing_prices (t : Produtos.Table) :
    (Produtos.fill_missing_prices t).length = t.length := by
  rw [Produtos.fill_missing_prices, Produtos.fill_missing_prices_core]
  rw [fold_price_length]
  simp

theorem length_validate_age_range (t t' : Empregados.Table)
    (h : Empregados.validate_age_range t = some t') : t'.length = t.length := by
  rw [Empregados.validate_age_range] at h
  have hl := mapM_some_length _ _ _ h
  rw [hl, clamp_step_eq, foldl_listModify_length]

theorem length_calculate_total_values (v v' : Vendas.Table)
    (h : Vendas.calculate_total_values v = some v') : v'.length = v.length := by
  rw [Vendas.calculate_total_values] at h
  have hl := mapM_some_length _ _ _ h
  rw [hl, List.length_map]

/-- When the product id column is duplicate-free — as duplicate removal
leaves it, with `NaN` keys counted equal to each other — a sale matches
at most one product row in the merge. -/
theorem filter_matching_single (c : Cell) :
    ∀ (p : Produtos.Table),
      ((p.map (fun q => q.id_produto)).Nodup) →
      p.filter (fun q => c == q.id_produto) = [] ∨
      ∃ q0, p.filter (fun q => c == q.id_produto) = [q0] := by
  intro p
  induction p with
  | nil => intro _; exact Or.inl rfl
  | cons q0 p' ih =>
    intro hnd
    simp only [List.map_cons, List.nodup_cons] at hnd
    cases h0 : c == q0.id_produto with
    | false =>
      have hf : (q0 :: p').filter (fun q => c == q.id_produto) =
          p'.filter (fun q => c == q.id_produto) := by
        simp [List.filter_cons, h0]
      rw [hf]
      exact ih hnd.2
    | true =>
      have hce : c = q0.id_produto := eq_of_beq h0
      have hf : (q0 :: p').filter (fun q => c == q.id_produto) =
          q0 :: p'.filter (fun q => c == q.id_produto) := by
        simp [List.filter_cons, h0]
      rw [hf]
      right
      refine ⟨q0, ?_⟩
      have hnil : p'.filter (fun q => c == q.id_produto) = [] := by
        rw [List.filter_eq_nil_iff]
        intro a ha hpa
        have hca : c = a.id_produto := eq_of_beq hpa
        have heq : q0.id_produto = a.id_produto := hce.symm.trans hca
        have hmem : a.id_produto ∈ p'.map (fun q => q.id_produto) :=
          List.mem_map_of_mem (fun q => q.id_produto) ha
        rw [← heq] at hmem
        exact hnd.1 hmem
      rw [hnil]

/-- Length of a `flatMap` whose function returns one row per element. -/
theorem flatMap_length_one {α β : Type} (g : α → List β)
    (h : ∀ a, (g a).length = 1) :
    ∀ l : List α, (l.flatMap g).length = l.length := by
  intro l
  induction l with
  | nil => rfl
  | cons x xs ih =>
    rw [List.flatMap_cons, List.length_append, h x, ih, List.length_cons]
    omega

/-- The category left-merge keeps one output row per sale when the
product id column is duplicate-free. -/
theorem mergeCategoria_length (p : Produtos.Table)
    (hnd : (p.map (fun q => q.id_produto)).Nodup) :
    ∀ (v : Vendas.Table), (Vendas.mergeCategoria v p).length = v.length := by
  intro v
  rw [Vendas.mergeCategoria]
  refine flatMap_length_one _ ?_ v
  intro r
  dsimp only
  rcases filter_matching_single r.id_produto p hnd with hnil | ⟨q0, hq0⟩
  · rw [hnil]
    rfl
  · rw [hq0]
    rfl

theorem uvFold_length :
    ∀ (cats : List (Option String))
      (acc : List (Vendas.Rec × Option String) × ℕ),
      ((cats.foldl (fun (acc : List (Vendas.Rec × Option String) × ℕ) c =>
        match c with
        | none => acc
        | some cname =>
          match medianQ ((acc.1.filter (fun m =>
              pdEqStr m.2 (some cname) && ! isNullCell m.1.valor_unitario)).filterMap
              (fun m => cellNum? m.1.valor_unitario)) with
          | some med =>
            (acc.1.map (fun m =>
              if pdEqStr m.2 (some cname) && isNullCell m.1.valor_unitario then
                ({ m.1 with valor_unitario := Cell.num (pyRound2 med) }, m.2)
              else m), acc.2)
          | none => (acc.1, acc.2 + 1)) acc).1).length = acc.1.length := by
  intro cats
  induction cats with
  | nil => intro acc; rfl
  | cons c cs ih =>
    intro acc
    rw [List.foldl_cons, ih]
    cases c with
    | none => rfl
    | some cname =>
      show ((match medianQ ((acc.1.filter (fun m : Vendas.Rec × Option String =>
            pdEqStr m.2 (some cname) && ! isNullCell m.1.valor_unitario)).filterMap
            (fun m : Vendas.Rec × Option String => cellNum? m.1.valor_unitario)) with
          | some med =>
            (acc.1.map (fun m : Vendas.Rec × Option String =>
              if pdEqStr m.2 (some cname) && isNullCell m.1.valor_unitario then
                ({ m.1 with valor_unitario := Cell.num (pyRound2 med) }, m.2)
              else m), acc.2)
          | none => (acc.1, acc.2 + 1)).1).length = acc.1.length
      cases hm : medianQ ((acc.1.filter (fun m : Vendas.Rec × Option String =>
          pdEqStr m.2 (some cname) && ! isNullCell m.1.valor_unitario)).filterMap
          (fun m : Vendas.Rec × Option String => cellNum? m.1.valor_unitario)) with
      | some med =>
        show (acc.1.map (fun m : Vendas.Rec × Option String =>
          if pdEqStr m.2 (some cname) && isNullCell m.1.valor_unitario then
            ({ m.1 with valor_unitario := Cell.num (pyRound2 med) }, m.2)
          else m)).length = acc.1.length
        exact List.length_map _ _
      | none => rfl

theorem length_fill_missing_unit_values (v : Vendas.Table) (p : Produtos.Table)
    (hnd : (p.map (fun q => q.id_produto)).Nodup) :
    (Vendas.fill_missing_unit_values v p).length = v.length := by
  have hm : (Vendas.mergeCategoria (v.map Vendas.numifyValorUnit) p).length =
      v.length := by
    rw [mergeCategoria_length p hnd (v.map Vendas.numifyValorUnit),
      List.length_map]
  have hfin : ∀ (l : List (Vendas.Rec × Option String)),
      ((if (l.filter (fun m : Vendas.Rec × Option String => m.2.isNone && isNullCell m.1.valor_unitario)).isEmpty
        then l
        else match medianQ ((l.filter (fun m : Vendas.Rec × Option String =>
            ! isNullCell m.1.valor_unitario)).filterMap
            (fun m : Vendas.Rec × Option String => cellNum? m.1.valor_unitario)) with
          | some med =>
            l.map (fun m : Vendas.Rec × Option String =>
              if m.2.isNone && isNullCell m.1.valor_unitario then
                ({ m.1 with valor_unitario := Cell.num (pyRound2 med) }, m.2)
              else m)
          | none => l).length) = l.length := by
    intro l
    by_cases h : (l.filter (fun m : Vendas.Rec × Option String =>
        m.2.isNone && isNullCell m.1.valor_unitario)).isEmpty = true
    · rw [if_pos h]
    · rw [if_neg h]
      cases hg : medianQ ((l.filter (fun m : Vendas.Rec × Option String =>
          ! isNullCell m.1.valor_unitario)).filterMap
          (fun m : Vendas.Rec × Option String => cellNum? m.1.valor_unitario)) with
      | some med =>
        show (l.map (fun m : Vendas.Rec × Option String =>
            if m.2.isNone && isNullCell m.1.valor_unitario then
              ({ m.1 with valor_unitario := Cell.num (pyRound2 med) }, m.2)
            else m)).length = l.length
        exact List.length_map _ _
      | none => rfl
  rw [Vendas.fill_missing_unit_values, Vendas.fill_missing_unit_values_core]
  dsimp only
  by_cases hbe : ((Vendas.mergeCategoria (v.map Vendas.numifyValorUnit) p).filter
      (fun m : Vendas.Rec × Option String => isNullCell m.1.valor_unitario)).isEmpty = true
  · rw [if_pos hbe, List.length_map]
    exact hm
  · rw [if_neg hbe]
    dsimp only
    rw [List.length_map]
    exact Eq.trans (hfin _) (Eq.trans
      (uvFold_length _
        ((Vendas.mergeCategoria (v.map Vendas.numifyValorUnit) p), 0)) hm)

/-! ### C6 — support: dedup key uniqueness and the id-assignment fold -/

theorem dedupByKey_mem {α : Type} (key : α → Cell) :
    ∀ (l : List α) (seen : List Cell) (x : α),
      x ∈ dedupByKey key l seen → x ∈ l := by
  intro l
  induction l with
  | nil =>
    intro seen x h
    rw [dedupByKey] at h
    exact absurd h (List.not_mem_nil x)
  | cons y ys ih =>
    intro seen x h
    rw [dedupByKey] at h
    by_cases hk : key y ∈ seen
    · rw [if_pos hk] at h
      exact List.mem_cons_of_mem _ (ih _ _ h)
    · rw [if_neg hk] at h
      rcases List.mem_cons.mp h with h | h
      · rw [h]; exact List.mem_cons_self _ _
      · exact List.mem_cons_of_mem _ (ih _ _ h)

theorem dedupByKey_key_not_seen {α : Type} (key : α → Cell) :
    ∀ (l : List α) (seen : List Cell) (x : α),
      x ∈ dedupByKey key l seen → key x ∉ seen := by
  intro l
  induction l with
  | nil =>
    intro seen x h
    rw [dedupByKey] at h
    exact absurd h (List.not_mem_nil x)
  | cons y ys ih =>
    intro seen x h
    rw [dedupByKey] at h
    by_cases hk : key y ∈ seen
    · rw [if_pos hk] at h
      exact ih _ _ h
    · rw [if_neg hk] at h
      rcases List.mem_cons.mp h with h | h
      · rw [h]; exact hk
      · intro hc
        exact (ih _ _ h) (List.mem_cons_of_mem _ hc)

theorem dedupByKey_keys_nodup {α : Type} (key : α → Cell) :
    ∀ (l : List α) (seen : List Cell),
      ((dedupByKey key l seen).map key).Nodup := by
  intro l
  induction l with
  | nil =>
    intro seen
    rw [dedupByKey]
    exact List.nodup_nil
  | cons y ys ih =>
    intro seen
    rw [dedupByKey]
    by_cases hk : key y ∈ seen
    · rw [if_pos hk]; exact ih _
    · rw [if_neg hk]
      rw [List.map_cons, List.nodup_cons]
      refine ⟨?_, ih _⟩
      intro hc
      rw [List.mem_map] at hc
      obtain ⟨z, hz, hzz⟩ := hc
      exact (dedupByKey_key_not_seen key ys (key y :: seen) z hz)
        (by rw [hzz]; exact List.mem_cons_self _ _)

/-- Position of index `i` among the first components of `l` — the step
at which an index-directed counting fold reaches `i`. -/
def idxRank {β : Type} : List (ℕ × β) → ℕ → Option ℕ
  | [], _ => none
  | p :: ps, i =>
    if p.1 = i then some 0 else (idxRank ps i).map (fun k => k + 1)

theorem idxRank_eq_none {β : Type} :
    ∀ (l : List (ℕ × β)) (i : ℕ), i ∉ l.map Prod.fst →
      idxRank l i = none := by
  intro l
  induction l with
  | nil => intro i _; rfl
  | cons p ps ih =>
    intro i hi
    simp only [List.map_cons, List.mem_cons, not_or] at hi
    rw [idxRank, if_neg (fun hc => hi.1 hc.symm), ih i hi.2]
    rfl

theorem idxRank_isSome {β : Type} :
    ∀ (l : List (ℕ × β)) (i : ℕ), i ∈ l.map Prod.fst →
      ∃ k, idxRank l i = some k := by
  intro l
  induction l with
  | nil => intro i hi; simp at hi
  | cons p ps ih =>
    intro i hi
    by_cases hpi : p.1 = i
    · exact ⟨0, by rw [idxRank, if_pos hpi]⟩
    · simp only [List.map_cons, List.mem_cons] at hi
      rcases hi with hi | hi
      · exact absurd hi.symm hpi
      · obtain ⟨k, hk⟩ := ih i hi
        exact ⟨k + 1, by rw [idxRank, if_neg hpi, hk]; rfl⟩

theorem idxRank_inj {β : Type} :
    ∀ (l : List (ℕ × β)) (i j k : ℕ),
      idxRank l i = some k → idxRank l j = some k → i = j := by
  intro l
  induction l with
  | nil =>
    intro i j k hi _
    exact absurd hi (by rw [idxRank]; simp)
  | cons p ps ih =>
    intro i j k hi hj
    rw [idxRank] at hi hj
    by_cases hpi : p.1 = i <;> by_cases hpj : p.1 = j
    · rw [← hpi, ← hpj]
    · rw [if_pos hpi] at hi
      rw [if_neg hpj] at hj
      rw [Option.some_inj] at hi
      obtain ⟨k', hk', hkk⟩ := Option.map_eq_some'.mp hj
      omega
    · rw [if_neg hpi] at hi
      rw [if_pos hpj] at hj
      rw [Option.some_inj] at hj
      obtain ⟨k', hk', hkk⟩ := Option.map_eq_some'.mp hi
      omega
    · rw [if_neg hpi] at hi
      rw [if_neg hpj] at hj
      obtain ⟨ki, hki, hkik⟩ := Option.map_eq_some'.mp hi
      obtain ⟨kj, hkj, hkjk⟩ := Option.map_eq_some'.mp hj
      have hkikj : ki = kj := by omega
      exact ih i j ki hki (hkikj.symm ▸ hkj)

theorem fold_assign_length {α : Type} (G : ℤ → α → α) :
    ∀ (l : List (ℕ × α)) (acc : List α) (c : ℤ),
      ((l.foldl (fun (a : List α × ℤ) p =>
        (listModify a.1 p.1 (G a.2), a.2 + 1)) (acc, c)).1).length =
        acc.length := by
  intro l
  induction l with
  | nil => intro acc c; rfl
  | cons p ps ih =>
    intro acc c
    simp only [List.foldl_cons]
    rw [ih (listModify acc p.1 (G c)) (c + 1), listModify_length]

/-- Pointwise description of a counting fold that writes `G c` at index
`p.1` and increments the counter `c` at every step: position `i` receives
`G` at the counter offset equal to `i`'s rank in the index list. -/
theorem fold_assign_getD {α : Type} (G : ℤ → α → α) (d : α) :
    ∀ (l : List (ℕ × α)) (acc : List α) (c : ℤ),
      ((l.map Prod.fst).Nodup) → (∀ p ∈ l, p.1 < acc.length) →
      ∀ i : ℕ,
      ((l.foldl (fun (a : List α × ℤ) p =>
          (listModify a.1 p.1 (G a.2), a.2 + 1)) (acc, c)).1).getD i d =
        match idxRank l i with
        | some k => G (c + k) (acc.getD i d)
        | none => acc.getD i d := by
  intro l
  induction l with
  | nil => intro acc c _ _ i; rfl
  | cons p ps ih =>
    intro acc c hnd hlt i
    simp only [List.map_cons, List.nodup_cons] at hnd
    simp only [List.foldl_cons]
    by_cases hpi : p.1 = i
    · subst hpi
      rw [ih (listModify acc p.1 (G c)) (c + 1) hnd.2
        (fun q hq => by
          rw [listModify_length]
          exact hlt q (List.mem_cons_of_mem _ hq)) p.1]
      rw [idxRank_eq_none ps p.1 hnd.1]
      rw [show idxRank (p :: ps) p.1 = some 0 from by rw [idxRank, if_pos rfl]]
      show (listModify acc p.1 (G c)).getD p.1 d =
        G (c + ((0 : ℕ) : ℤ)) (acc.getD p.1 d)
      rw [listModify_getD_self acc p.1 (G c) d (hlt p (List.mem_cons_self _ _))]
      have h0 : c + ((0 : ℕ) : ℤ) = c := by push_cast; ring
      rw [h0]
    · rw [show idxRank (p :: ps) i = (idxRank ps i).map (fun k => k + 1) from by
        rw [idxRank, if_neg hpi]]
      rw [ih (listModify acc p.1 (G c)) (c + 1) hnd.2
        (fun q hq => by
          rw [listModify_length]
          exact hlt q (List.mem_cons_of_mem _ hq)) i]
      cases hk : idxRank ps i with
      | none =>
        show (listModify acc p.1 (G c)).getD i d = acc.getD i d
        exact listModify_getD_ne acc p.1 i (G c) d (fun hc => hpi hc.symm)
      | some k =>
        show G (c + 1 + (k : ℤ)) ((listModify acc p.1 (G c)).getD i d) =
          G (c + ((k + 1 : ℕ) : ℤ)) (acc.getD i d)
        rw [listModify_getD_ne acc p.1 i (G c) d (fun hc => hpi hc.symm)]
        have hc1 : c + 1 + (k : ℤ) = c + ((k + 1 : ℕ) : ℤ) := by push_cast; ring
        rw [hc1]

theorem foldlMax_mem :
    ∀ (xs : List ℚ) (x : ℚ),
      xs.foldl (fun a b => if a ≤ b then b else a) x ∈ x :: xs := by
  intro xs
  induction xs with
  | nil => intro x; exact List.mem_cons_self _ _
  | cons y ys ih =>
    intro x
    simp only [List.foldl_cons]
    have h := ih (if x ≤ y then y else x)
    rcases List.mem_cons.mp h with h | h
    · rw [h]
      by_cases hxy : x ≤ y
      · rw [if_pos hxy]
        exact List.mem_cons_of_mem _ (List.mem_cons_self _ _)
      · rw [if_neg hxy]
        exact List.mem_cons_self _ _
    · exact List.mem_cons_of_mem _ (List.mem_cons_of_mem _ h)

theorem le_foldlMax :
    ∀ (xs : List ℚ) (x z : ℚ), z ∈ x :: xs →
      z ≤ xs.foldl (fun a b => if a ≤ b then b else a) x := by
  intro xs
  induction xs with
  | nil =>
    intro x z hz
    rcases List.mem_cons.mp hz with h | h
    · rw [h]; exact le_refl x
    · exact absurd h (List.not_mem_nil z)
  | cons y ys ih =>
    intro x z hz
    simp only [List.foldl_cons]
    have hstep : x ≤ (if x ≤ y then y else x) ∧ y ≤ (if x ≤ y then y else x) := by
      by_cases hxy : x ≤ y
      · rw [if_pos hxy]; exact ⟨hxy, le_refl y⟩
      · rw [if_neg hxy]; exact ⟨le_refl x, le_of_not_le hxy⟩
    have hm : (if x ≤ y then y else x) ≤
        ys.foldl (fun a b => if a ≤ b then b else a) (if x ≤ y then y else x) :=
      ih _ _ (List.mem_cons_self _ _)
    rcases List.mem_cons.mp hz with h | h
    · rw [h]; exact le_trans hstep.1 hm
    · rcases List.mem_cons.mp h with h | h
      · rw [h]; exact le_trans hstep.2 hm
      · exact ih _ _ (List.mem_cons_of_mem _ h)

theorem maxQ_spec (l : List ℚ) (h : l ≠ []) :
    ∃ m, maxQ l = some m ∧ m ∈ l ∧ ∀ x ∈ l, x ≤ m := by
  cases l with
  | nil => exact absurd rfl h
  | cons x xs =>
    exact ⟨xs.foldl (fun a b => if a ≤ b then b else a) x, rfl,
      foldlMax_mem xs x, fun z hz => le_foldlMax xs x z hz⟩

theorem pyTrunc_intCast (n : ℤ) : pyTrunc ((n : ℚ)) = n := by
  rw [pyTrunc]
  by_cases h : (0 : ℚ) ≤ (n : ℚ)
  · rw [if_pos h, ratFloor_eq_floor, Int.floor_intCast]
  · rw [if_neg h, ratFloor_eq_floor]
    rw [show -((n : ℚ)) = (((-n) : ℤ) : ℚ) from by push_cast; ring]
    rw [Int.floor_intCast, neg_neg]

theorem mapM_id_of_forall {α : Type} (f : α → Option α) :
    ∀ (l : List α), (∀ x ∈ l, f x = some x) → l.mapM f = some l := by
  intro l
  induction l with
  | nil => intro _; rfl
  | cons x xs ih =>
    intro h
    rw [List.mapM_cons, h x (List.mem_cons_self _ _),
      ih (fun y hy => h y (List.mem_cons_of_mem _ hy))]
    rfl

theorem getD_ne_of_nodup {α : Type} (l : List α) (d : α) (h : l.Nodup)
    (i j : ℕ) (hi : i < l.length) (hj : j < l.length) (hij : i ≠ j) :
    l.getD i d ≠ l.getD j d := by
  rw [List.getD_eq_getElem l d hi, List.getD_eq_getElem l d hj]
  intro hc
  have hinj := List.nodup_iff_injective_get.mp h
  have h2 : (⟨i, hi⟩ : Fin l.length) = ⟨j, hj⟩ := by
    apply hinj
    rw [List.get_eq_getElem, List.get_eq_getElem]
    exact hc
  exact hij (congrArg Fin.val h2)

theorem nodup_of_getD_ne {α : Type} (l : List α) (d : α)
    (h : ∀ i j, i < l.length → j < l.length → i ≠ j →
      l.getD i d ≠ l.getD j d) : l.Nodup := by
  rw [List.nodup_iff_injective_get]
  intro a b hab
  by_contra hne
  have hne' : a.1 ≠ b.1 := fun hc => hne (Fin.ext hc)
  refine absurd ?_ (h a.1 b.1 a.2 b.2 hne')
  rw [List.getD_eq_getElem l d a.2, List.getD_eq_getElem l d b.2]
  exact hab

theorem mem_enumFrom_le {α : Type} :
    ∀ (t : List α) (n : ℕ) (p : ℕ × α), p ∈ List.enumFrom n t → n ≤ p.1 := by
  intro t
  induction t with
  | nil => intro n p h; simp at h
  | cons x xs ih =>
    intro n p h
    simp only [List.enumFrom, List.mem_cons] at h
    rcases h with h | h
    · subst h; exact le_refl n
    · have := ih (n + 1) p h
      omega

theorem mem_enumFrom_getD {α : Type} (d : α) :
    ∀ (t : List α) (n : ℕ) (p : ℕ × α), p ∈ List.enumFrom n t →
      p.2 = t.getD (p.1 - n) d := by
  intro t
  induction t with
  | nil => intro n p h; simp at h
  | cons x xs ih =>
    intro n p h
    simp only [List.enumFrom, List.mem_cons] at h
    rcases h with h | h
    · subst h; simp
    · have hle := mem_enumFrom_le xs (n + 1) p h
      rw [show p.1 - n = (p.1 - (n + 1)) + 1 from by omega,
        List.getD_cons_succ]
      exact ih (n + 1) p h

theorem length_fill_missing_employee_ids (t t' : Empregados.Table)
    (h : Empregados.fill_missing_employee_ids t = some t') :
    t'.length = t.length := by
  rw [Empregados.fill_missing_employee_ids] at h
  have hl := mapM_some_length _ _ _ h
  rw [hl]
  by_cases hbe : ((t.enum.filter
      (fun p => Empregados.isMissingId p.2.id_empregado)).isEmpty) = true
  · rw [if_pos hbe]
  · rw [if_neg hbe]
    exact fold_assign_length
      (fun c x => { x with id_empregado := Cell.num ((c : ℤ) : ℚ) }) _ t _

/-- The final `to_numeric(...).astype('Int64')` conversion of
`fill_missing_employee_ids` is the identity on a row whose id is an
integer-valued number. -/
theorem id_cast_step_id (r : Empregados.Rec)
    (h : ∃ n : ℤ, r.id_empregado = Cell.num ((n : ℚ))) :
    (match toNumericCell r.id_empregado with
      | none => some { r with id_empregado := Cell.null }
      | some q =>
        if q.den = 1 then some { r with id_empregado := Cell.num q }
        else none) = some r := by
  obtain ⟨n, hn⟩ := h
  rw [hn]
  show (if ((n : ℚ)).den = 1 then
      some { r with id_empregado := Cell.num ((n : ℚ)) } else none) = some r
  rw [if_pos (Rat.den_intCast n)]
  rw [← hn]

/-- `fill_missing_employee_ids` on a table whose ids are blank or
integer-valued and pairwise distinct: it completes, keeps the row count,
and the resulting id column is duplicate-free — blanks receive the
sequential keys `max+1, max+2, …`, which exceed every existing key. -/
theorem fill_missing_employee_ids_int_spec (u : Empregados.Table)
    (hval : ∀ r ∈ u, Empregados.isMissingId r.id_empregado = true ∨
      ∃ n : ℤ, r.id_empregado = Cell.num ((n : ℚ)))
    (hnd : (u.map (fun r => r.id_empregado)).Nodup) :
    ∃ t', Empregados.fill_missing_employee_ids u = some t' ∧
      t'.length = u.length ∧
      (t'.map (fun r => r.id_empregado)).Nodup := by
  have hshow : Empregados.fill_missing_employee_ids u =
      (if ((u.enum.filter (fun p => Empregados.isMissingId p.2.id_empregado)).isEmpty) then u
       else ((u.enum.filter (fun p => Empregados.isMissingId p.2.id_empregado)).foldl
          (fun (acc : Empregados.Table × ℤ) p =>
            (listModify acc.1 p.1
              (fun x => { x with id_empregado := Cell.num ((acc.2 : ℤ) : ℚ) }),
             acc.2 + 1))
          (u,
            (if (u.filter (fun r => ! Empregados.isMissingId r.id_empregado)).isEmpty then 0
             else
               match maxQ ((u.filter (fun r => ! Empregados.isMissingId r.id_empregado)).filterMap
                   (fun r => toNumericCell r.id_empregado)) with
               | none => 0
               | some m => pyTrunc m) + 1)).1).mapM
        (fun r =>
          match toNumericCell r.id_empregado with
          | none => some { r with id_empregado := Cell.null }
          | some q =>
            if q.den = 1 then some { r with id_empregado := Cell.num q }
            else none) := rfl
  by_cases hbe : (u.enum.filter (fun p => Empregados.isMissingId p.2.id_empregado)).isEmpty = true
  · -- no blank ids: the fold is skipped and the conversion is the identity
    have hAint : ∀ r ∈ u, ∃ n : ℤ, r.id_empregado = Cell.num ((n : ℚ)) := by
      intro r hr
      obtain ⟨i, hi, hri⟩ := List.mem_iff_getElem.mp hr
      have hpred : Empregados.isMissingId ((u.getD i Empregados.Rec.dflt).id_empregado) = false :=
        enum_filter_isEmpty_pred u (fun p => Empregados.isMissingId p.2.id_empregado)
          Empregados.Rec.dflt i hi hbe
      rcases hval r hr with hmiss | hint2
      · exfalso
        rw [List.getD_eq_getElem u Empregados.Rec.dflt hi, hri, hmiss] at hpred
        exact Bool.false_ne_true hpred.symm
      · exact hint2
    refine ⟨u, ?_, rfl, hnd⟩
    rw [hshow, if_pos hbe]
    exact mapM_id_of_forall _ u (fun r hr => id_cast_step_id r (hAint r hr))
  · -- some ids are blank: they are rewritten by the counting fold
    set L := u.enum.filter (fun p => Empregados.isMissingId p.2.id_empregado) with hLdef
    set MM : ℤ :=
      (if (u.filter (fun r => ! Empregados.isMissingId r.id_empregado)).isEmpty then 0
       else
         match maxQ ((u.filter (fun r => ! Empregados.isMissingId r.id_empregado)).filterMap
             (fun r => toNumericCell r.id_empregado)) with
         | none => 0
         | some m => pyTrunc m) with hMMdef
    set T1 := ((L.foldl
        (fun (acc : Empregados.Table × ℤ) p =>
          (listModify acc.1 p.1
            (fun x => { x with id_empregado := Cell.num ((acc.2 : ℤ) : ℚ) }),
           acc.2 + 1))
        (u, MM + 1)).1) with hT1def
    have ht1len : T1.length = u.length :=
      fold_assign_length
        (fun c x => { x with id_empregado := Cell.num ((c : ℤ) : ℚ) })
        L u (MM + 1)
    have hrank_some : ∀ i, i < u.length →
        Empregados.isMissingId ((u.getD i Empregados.Rec.dflt).id_empregado) = true →
        ∃ k, idxRank L i = some k := by
      intro i hi hm
      apply idxRank_isSome
      have hfind := find?_enumFrom_filter (fun p => Empregados.isMissingId p.2.id_empregado)
        Empregados.Rec.dflt u 0 i (Nat.zero_le i) (by omega)
      simp only [Nat.sub_zero] at hfind
      rw [if_pos (show (fun p => Empregados.isMissingId p.2.id_empregado)
        (i, u.getD i Empregados.Rec.dflt) = true from hm)] at hfind
      have hfind' : L.find? (fun p => p.1 = i) =
          some (i, u.getD i Empregados.Rec.dflt) := hfind
      have hmem := List.mem_of_find?_eq_some hfind'
      rw [List.mem_map]
      exact ⟨(i, u.getD i Empregados.Rec.dflt), hmem, rfl⟩
    have hrank_none : ∀ i, i < u.length →
        Empregados.isMissingId ((u.getD i Empregados.Rec.dflt).id_empregado) = false →
        idxRank L i = none := by
      intro i hi hm
      apply idxRank_eq_none
      intro hmem
      rw [List.mem_map] at hmem
      obtain ⟨p, hp, hpi⟩ := hmem
      rw [hLdef] at hp
      have hpf0 := List.of_mem_filter hp
      have hpf : Empregados.isMissingId (p.2.id_empregado) = true := hpf0
      have hpe : p ∈ u.enum := List.mem_of_mem_filter hp
      have hp2 : p.2 = u.getD p.1 Empregados.Rec.dflt := by
        have := mem_enumFrom_getD Empregados.Rec.dflt u 0 p hpe
        simpa using this
      rw [hpi] at hp2
      rw [hp2, hm] at hpf
      exact Bool.false_ne_true hpf
    have ht1i : ∀ i : ℕ,
        T1.getD i Empregados.Rec.dflt =
          match idxRank L i with
          | some k => { u.getD i Empregados.Rec.dflt with
              id_empregado := Cell.num ((MM + 1 + (k : ℤ) : ℤ) : ℚ) }
          | none => u.getD i Empregados.Rec.dflt := by
      intro i
      exact fold_assign_getD
        (fun c x => { x with id_empregado := Cell.num ((c : ℤ) : ℚ) })
        Empregados.Rec.dflt L u (MM + 1)
        (by rw [hLdef]; exact nodup_fst_enum_filter u _)
        (by rw [hLdef]; exact fun p hp => mem_enum_filter_lt u _ p hp) i
    have hF1 : ∀ r ∈ u, Empregados.isMissingId r.id_empregado = false →
        ∃ n : ℤ, r.id_empregado = Cell.num ((n : ℚ)) ∧ n ≤ MM := by
      intro r hr hnm
      rcases hval r hr with hmiss | ⟨n, hn⟩
      · rw [hmiss] at hnm
        exact absurd hnm (by simp)
      refine ⟨n, hn, ?_⟩
      have hrex : r ∈ u.filter (fun r => ! Empregados.isMissingId r.id_empregado) := by
        rw [List.mem_filter]
        exact ⟨hr, by rw [hnm]; rfl⟩
      have hqmem : ((n : ℚ)) ∈
          (u.filter (fun r => ! Empregados.isMissingId r.id_empregado)).filterMap
            (fun r => toNumericCell r.id_empregado) := by
        rw [List.mem_filterMap]
        exact ⟨r, hrex, by rw [hn]; rfl⟩
      have hne : (u.filter (fun r => ! Empregados.isMissingId r.id_empregado)).filterMap
          (fun r => toNumericCell r.id_empregado) ≠ [] := by
        intro hnil
        rw [hnil] at hqmem
        exact List.not_mem_nil _ hqmem
      obtain ⟨m, hm, hmmem, hmle⟩ := maxQ_spec _ hne
      have hmint : ∃ km : ℤ, m = ((km : ℚ)) := by
        rw [List.mem_filterMap] at hmmem
        obtain ⟨r', hr', hr'm⟩ := hmmem
        rw [List.mem_filter] at hr'
        rcases hval r' hr'.1 with hmiss' | ⟨k, hk⟩
        · rw [hmiss'] at hr'
          exact absurd hr'.2 (by simp)
        · rw [hk] at hr'm
          have hsome : some ((k : ℚ)) = some m := hr'm
          exact ⟨k, (Option.some_inj.mp hsome).symm⟩
      obtain ⟨km, hkm⟩ := hmint
      have hexne : (u.filter (fun r => ! Empregados.isMissingId r.id_empregado)).isEmpty = false := by
        cases hE : (u.filter (fun r => ! Empregados.isMissingId r.id_empregado)).isEmpty with
        | false => rfl
        | true =>
          rw [List.isEmpty_iff] at hE
          rw [hE] at hrex
          exact absurd hrex (List.not_mem_nil r)
      have hMM : MM = pyTrunc m := by
        rw [hMMdef, if_neg (by rw [hexne]; exact Bool.false_ne_true), hm]
      rw [hMM, hkm, pyTrunc_intCast]
      have hcast := hmle ((n : ℚ)) hqmem
      rw [hkm] at hcast
      exact_mod_cast hcast
    have hT1int : ∀ r ∈ T1, ∃ n : ℤ, r.id_empregado = Cell.num ((n : ℚ)) := by
      intro r hr
      obtain ⟨i, hi, hri⟩ := List.mem_iff_getElem.mp hr
      have hiu : i < u.length := by rw [← ht1len]; exact hi
      have hr' : r = T1.getD i Empregados.Rec.dflt := by
        rw [List.getD_eq_getElem T1 Empregados.Rec.dflt hi, hri]
      rw [hr', ht1i i]
      cases hk : idxRank L i with
      | some k => exact ⟨MM + 1 + (k : ℤ), rfl⟩
      | none =>
        cases hm : Empregados.isMissingId ((u.getD i Empregados.Rec.dflt).id_empregado) with
        | true =>
          obtain ⟨k, hk'⟩ := hrank_some i hiu hm
          rw [hk'] at hk
          exact absurd hk (by simp)
        | false =>
          have hmem : u.getD i Empregados.Rec.dflt ∈ u := by
            rw [List.getD_eq_getElem u Empregados.Rec.dflt hiu]
            exact List.getElem_mem hiu
          rcases hval _ hmem with hmiss | hint2
          · rw [hmiss] at hm
            exact absurd hm (by simp)
          · exact hint2
    have hndm : (T1.map (fun r => r.id_empregado)).Nodup := by
      apply nodup_of_getD_ne _ Cell.null
      intro i j hi hj hij
      rw [List.length_map] at hi hj
      rw [getD_map _ _ _ hi Cell.null Empregados.Rec.dflt,
        getD_map _ _ _ hj Cell.null Empregados.Rec.dflt]
      have hiu : i < u.length := by rw [← ht1len]; exact hi
      have hju : j < u.length := by rw [← ht1len]; exact hj
      rw [ht1i i, ht1i j]
      cases hki : idxRank L i with
      | some ki =>
        cases hkj : idxRank L j with
        | some kj =>
          intro hc
          have hc' : Cell.num ((MM + 1 + (ki : ℤ) : ℤ) : ℚ) =
              Cell.num ((MM + 1 + (kj : ℤ) : ℤ) : ℚ) := hc
          have h2 : ((MM + 1 + (ki : ℤ) : ℤ) : ℚ) =
              ((MM + 1 + (kj : ℤ) : ℤ) : ℚ) := by injection hc'
          have h3 : MM + 1 + (ki : ℤ) = MM + 1 + (kj : ℤ) := by exact_mod_cast h2
          have h4 : ki = kj := by omega
          exact hij (idxRank_inj L i j ki hki (h4.symm ▸ hkj))
        | none =>
          have hmj : Empregados.isMissingId ((u.getD j Empregados.Rec.dflt).id_empregado) = false := by
            cases hm : Empregados.isMissingId ((u.getD j Empregados.Rec.dflt).id_empregado) with
            | false => rfl
            | true =>
              obtain ⟨k, hk'⟩ := hrank_some j hju hm
              rw [hk'] at hkj
              exact absurd hkj (by simp)
          have hmemj : u.getD j Empregados.Rec.dflt ∈ u := by
            rw [List.getD_eq_getElem u Empregados.Rec.dflt hju]
            exact List.getElem_mem hju
          obtain ⟨n, hn, hnle⟩ := hF1 _ hmemj hmj
          intro hc
          have hc' : Cell.num ((MM + 1 + (ki : ℤ) : ℤ) : ℚ) =
              (u.getD j Empregados.Rec.dflt).id_empregado := hc
          rw [hn] at hc'
          have h2 : ((MM + 1 + (ki : ℤ) : ℤ) : ℚ) = ((n : ℚ)) := by injection hc'
          have h3 : MM + 1 + (ki : ℤ) = n := by exact_mod_cast h2
          omega
      | none =>
        cases hkj : idxRank L j with
        | some kj =>
          have hmi : Empregados.isMissingId ((u.getD i Empregados.Rec.dflt).id_empregado) = false := by
            cases hm : Empregados.isMissingId ((u.getD i Empregados.Rec.dflt).id_empregado) with
            | false => rfl
            | true =>
              obtain ⟨k, hk'⟩ := hrank_some i hiu hm
              rw [hk'] at hki
              exact absurd hki (by simp)
          have hmemi : u.getD i Empregados.Rec.dflt ∈ u := by
            rw [List.getD_eq_getElem u Empregados.Rec.dflt hiu]
            exact List.getElem_mem hiu
          obtain ⟨n, hn, hnle⟩ := hF1 _ hmemi hmi
          intro hc
          have hc' : (u.getD i Empregados.Rec.dflt).id_empregado =
              Cell.num ((MM + 1 + (kj : ℤ) : ℤ) : ℚ) := hc
          rw [hn] at hc'
          have h2 : ((n : ℚ)) = ((MM + 1 + (kj : ℤ) : ℤ) : ℚ) := by injection hc'
          have h3 : n = MM + 1 + (kj : ℤ) := by exact_mod_cast h2
          omega
        | none =>
          intro hc
          have hc' : (u.getD i Empregados.Rec.dflt).id_empregado =
              (u.getD j Empregados.Rec.dflt).id_empregado := hc
          have hnd2 := getD_ne_of_nodup (u.map (fun r => r.id_empregado))
            Cell.null hnd i j
            (by rw [List.length_map]; exact hiu)
            (by rw [List.length_map]; exact hju) hij
          rw [getD_map _ _ _ hiu Cell.null Empregados.Rec.dflt,
            getD_map _ _ _ hju Cell.null Empregados.Rec.dflt] at hnd2
          exact hnd2 hc'
    refine ⟨T1, ?_, ht1len, hndm⟩
    rw [hshow, if_neg hbe]
    exact mapM_id_of_forall _ T1 (fun r hr => id_cast_step_id r (hT1int r hr))

/-- C6, amended: after duplicate removal followed by missing-key fill,
the key column is unique provided every raw key is blank or an
integer-valued number.  Duplicate removal keeps the first occurrence of
each raw key; `fill_missing_employee_ids` then completes without raising,
preserves the row count, and yields a duplicate-free id column — blank
rows get the sequential keys `max+1, max+2, …`, which collide neither
with each other nor with the surviving integer keys. -/
theorem c6_amended_unique_keys (t : Empregados.Table)
    (hint : ∀ r ∈ t, Empregados.isMissingId r.id_empregado = true ∨
      ∃ n : ℤ, r.id_empregado = Cell.num ((n : ℚ))) :
    ∃ t', Empregados.fill_missing_employee_ids
        (Empregados.remove_duplicates t) = some t' ∧
      t'.length = (Empregados.remove_duplicates t).length ∧
      (t'.map (fun r => r.id_empregado)).Nodup ∧
      (t'.map (fun r => r.id_empregado)).dedup.length = t'.length := by
  obtain ⟨t', h1, h2, h3⟩ := fill_missing_employee_ids_int_spec
    (Empregados.remove_duplicates t)
    (by
      intro r hr
      rw [Empregados.remove_duplicates] at hr
      exact hint r (dedupByKey_mem (fun r => r.id_empregado) t [] r hr))
    (by
      rw [Empregados.remove_duplicates]
      exact dedupByKey_keys_nodup (fun r => r.id_empregado) t [])
  refine ⟨t', h1, h2, h3, ?_⟩
  rw [List.dedup_eq_self.mpr h3, List.length_map]

/-- C6, witness: integer keys 1 and 2 plus the blank key `" "` — the
repair completes and all three key values come out distinct. -/
theorem c6_amended_unique_keys_witness :
    ∃ t', Empregados.fill_missing_employee_ids
        (Empregados.remove_duplicates [exP, exQ, exK3]) = some t' ∧
      t'.length = (Empregados.remove_duplicates [exP, exQ, exK3]).length ∧
      (t'.map (fun r => r.id_empregado)).Nodup ∧
      (t'.map (fun r => r.id_empregado)).dedup.length = t'.length :=
  c6_amended_unique_keys [exP, exQ, exK3] (by
    intro r hr
    simp only [List.mem_cons, List.not_mem_nil, or_false] at hr
    rcases hr with rfl | rfl | rfl
    · exact Or.inr ⟨1, by norm_num [exP]⟩
    · exact Or.inr ⟨2, by norm_num [exQ]⟩
    · exact Or.inl (by decide))

/-! ### C2 — the fallback chains of the three numeric imputations -/

/-- C2, amended: the three numeric imputations do not share one fallback
chain.  (a) Ages follow group-median-then-global: whenever ids are
non-null and any age value exists in the table, every missing age is
filled.  (b) Prices have no global tier: a missing price whose category
holds no other usable price stays `null`, whatever valid prices exist in
other categories (product ids pairwise distinct, as after duplicate
removal).  (c) Unit values apply the global median exactly to sales with
unresolvable category: with an empty product lookup and any valid unit
value present, no missing unit value survives. -/
theorem c2_amended_fallback_chains :
    (∀ t : Empregados.Table,
      (∀ r ∈ t, r.id_empregado ≠ Cell.null) →
      (∃ r ∈ t, toNumericCell r.idade ≠ none) →
      ∀ r ∈ Empregados.fill_missing_ages t, r.idade ≠ Cell.null) ∧
    (∀ p : Produtos.Table, ∀ i : ℕ, i < p.length →
      (∀ j, j < p.length → ∀ k, k < p.length → j ≠ k →
        pdEqCell ((p.getD j Produtos.Rec.dflt).id_produto)
          ((p.getD k Produtos.Rec.dflt).id_produto) = false) →
      toNumericCell ((p.getD i Produtos.Rec.dflt).preco) = none →
      (∀ j, j < p.length → j ≠ i →
        pdEqStr ((p.getD j Produtos.Rec.dflt).categoria)
          ((p.getD i Produtos.Rec.dflt).categoria) = true →
        toNumericCell ((p.getD j Produtos.Rec.dflt).preco) = none) →
      ((Produtos.fill_missing_prices p).getD i Produtos.Rec.dflt).preco =
        Cell.null) ∧
    (∀ v : Vendas.Table,
      (∃ r ∈ v, toNumericCell r.valor_unitario ≠ none) →
      ∀ r ∈ Vendas.fill_missing_unit_values v [],
        r.valor_unitario ≠ Cell.null) :=
  ⟨ages_chain_total, prices_group_only, unit_values_global_when_no_category⟩

/-- C2, witness: with employees `C (Y, 30)` and `A (X, missing)` the
missing age is filled (globally, `X` having no peer); the missing price
of `exPrA` (category `A`, the only usable price living in category `B`)
stays `null`; and the missing unit value of `exUVn` is filled from the
global median with an empty product table. -/
theorem c2_amended_fallback_chains_witness :
    ((Empregados.fill_missing_ages [exC, exA]).getD 1
        Empregados.Rec.dflt).idade ≠ Cell.null ∧
    ((Produtos.fill_missing_prices [exPrA, exPrB]).getD 0
        Produtos.Rec.dflt).preco = Cell.null ∧
    ((Vendas.fill_missing_unit_values [exUVv, exUVn] []).getD 1
        Vendas.Rec.dflt).valor_unitario ≠ Cell.null :=
  ⟨c2_amended_fallback_chains.1 [exC, exA] (by decide) (by decide) _
      (by decide),
    c2_amended_fallback_chains.2.1 [exPrA, exPrB] 0 (by decide) (by decide)
      (by decide) (by decide),
    c2_amended_fallback_chains.2.2 [exUVv, exUVn] (by decide) _
      (by decide)⟩

/-! ### C1 — row-count invariance, amended -/

/-- C1, amended: every repair stage except duplicate removal preserves
the row count — the in-place fills unconditionally, the converting stages
(`validate_age_range`, `fill_missing_employee_ids`,
`calculate_total_values`) whenever they complete without raising, and the
unit-value fill provided the product lookup keys are duplicate-free (null
keys counted equal to each other, exactly as duplicate removal leaves
them — pandas `merge` matches null join keys against each other, so a
duplicated null key would duplicate a null-keyed sale row);
duplicate removal itself keeps the table intact exactly on duplicate-free
keys (and drops rows otherwise, per the counterexample). -/
theorem c1_amended_row_counts :
    (∀ t : Empregados.Table,
      (Empregados.fix_missing_names t).length = t.length) ∧
    (∀ t : Empregados.Table,
      (Empregados.fill_missing_cargos t).length = t.length) ∧
    (∀ t : Empregados.Table,
      (Empregados.fill_missing_ages t).length = t.length) ∧
    (∀ t t' : Empregados.Table,
      Empregados.validate_age_range t = some t' → t'.length = t.length) ∧
    (∀ t t' : Empregados.Table,
      Empregados.fill_missing_employee_ids t = some t' →
      t'.length = t.length) ∧
    (∀ p : Produtos.Table,
      (Produtos.fix_product_names p).length = p.length) ∧
    (∀ p : Produtos.Table,
      (Produtos.fill_missing_categories p).length = p.length) ∧
    (∀ p : Produtos.Table,
      (Produtos.fill_missing_prices p).length = p.length) ∧
    (∀ (now : Date) (v : Vendas.Table),
      (Vendas.validate_and_fill_dates now v).length = v.length) ∧
    (∀ (v : Vendas.Table) (p : Produtos.Table),
      (p.map (fun q => q.id_produto)).Nodup →
      (Vendas.fill_missing_unit_values v p).length = v.length) ∧
    (∀ v v' : Vendas.Table,
      Vendas.calculate_total_values v = some v' → v'.length = v.length) ∧
    (∀ t : Empregados.Table,
      (t.map (fun r => r.id_empregado)).Nodup →
      Empregados.remove_duplicates t = t) :=
  ⟨fun t => by rw [Empregados.fix_missing_names, List.length_map],
   fun t => by rw [Empregados.fill_missing_cargos, List.length_map],
   length_fill_missing_ages,
   length_validate_age_range,
   length_fill_missing_employee_ids,
   fun p => by rw [Produtos.fix_product_names, List.length_map],
   fun p => by rw [Produtos.fill_missing_categories, List.length_map],
   length_fill_missing_prices,
   length_validate_and_fill_dates,
   fun v p hnd => length_fill_missing_unit_values v p hnd,
   length_calculate_total_values,
   fun t hnd => by
     rw [Empregados.remove_duplicates]
     exact dedupByKey_eq_self _ t [] hnd (fun x _ => List.not_mem_nil _)⟩

/-- C1, witness: the conversion stages complete and preserve the row
count on concrete tables — `validate_age_range` and
`fill_missing_employee_ids` on employee tables, `fill_missing_unit_values`
against the two distinct products, `calculate_total_values` on a one-row
sale, and duplicate removal leaves the duplicate-free two-employee table
untouched. -/
theorem c1_amended_row_counts_witness :
    ([exP] : Empregados.Table).length = ([exP] : Empregados.Table).length ∧
    ([exP, exQ, exK3'] : Empregados.Table).length =
      ([exP, exQ, exK3] : Empregados.Table).length ∧
    (Vendas.fill_missing_unit_values [exUVv] [exPrA, exPrB]).length =
      ([exUVv] : Vendas.Table).length ∧
    ([exUVv] : Vendas.Table).length = ([exUVv] : Vendas.Table).length ∧
    Empregados.remove_duplicates [exP, exQ] = [exP, exQ] :=
  ⟨c1_amended_row_counts.2.2.2.1 [exP] [exP] (by decide),
   c1_amended_row_counts.2.2.2.2.1 [exP, exQ, exK3] [exP, exQ, exK3']
     (by decide),
   c1_amended_row_counts.2.2.2.2.2.2.2.2.2.1 [exUVv] [exPrA, exPrB]
     (by decide),
   c1_amended_row_counts.2.2.2.2.2.2.2.2.2.2.1 [exUVv] [exUVv] (by decide),
   c1_amended_row_counts.2.2.2.2.2.2.2.2.2.2.2 [exP, exQ] (by decide)⟩

end SalesETL
